import Mathlib

/-!
# Canonical identity resolution and deduplication engine: verification

Shallow embedding of the canonical-identity / deduplication core of the
`sc-etl` repository (source files `src/lib/canon.ts`,
`scripts/migrate_dedup_variants.ts`, `src/transform.ts`) together with
theorems settling the specification's claims about it.

String conventions: the TypeScript code works on JavaScript strings; all
data processed here is ASCII, where JavaScript `toUpperCase`, `<`,
`localeCompare` on identifier-like strings and Lean's `Char.toUpper`,
`String.lt` agree.  `localeCompare` is modelled as lexicographic string
comparison.  JavaScript truthiness on strings (empty string is falsy) is
modelled explicitly, and `null`/`undefined` are both modelled by
`Option.none` (they behave identically under `??` and `?.` at every call
site embedded here).
-/

namespace SCETL

/-- `[a-z0-9]` case-insensitively: the character class the tokenizer keeps
(`tokens` splits on `/[^a-z0-9]+/i`, `sanitizeToken` replaces
`/[^a-z0-9]+/gi`). -/
def isAlnumChar (c : Char) : Bool := c.isAlpha || c.isDigit

/-- Split a character list into the maximal runs of characters for which
`sep` is false, dropping empty runs; `acc` holds the (reversed) current
run.  This is the JS `split(regex).filter(Boolean)` idiom used by
`tokens` (separator: non-alphanumeric) and `titleCase` (separator:
whitespace). -/
def splitRunsAux (sep : Char → Bool) : List Char → List Char → List (List Char)
  | [], acc => if acc.isEmpty then [] else [acc.reverse]
  | c :: cs, acc =>
    if sep c then
      if acc.isEmpty then splitRunsAux sep cs [] else acc.reverse :: splitRunsAux sep cs []
    else splitRunsAux sep cs (c :: acc)

def splitRuns (sep : Char → Bool) (cs : List Char) : List (List Char) :=
  splitRunsAux sep cs []

/-- `tokens(input)`: `input.split(/[^a-z0-9]+/i).filter(Boolean)`. -/
def tokens (s : String) : List String :=
  (splitRuns (fun c => !isAlnumChar c) s.data).map (fun l => ⟨l⟩)

/-- `parts.join(sep)`. -/
def joinSep (sep : String) : List String → String
  | [] => ""
  | [x] => x
  | x :: y :: xs => x ++ sep ++ joinSep sep (y :: xs)

/-- JS `toUpperCase()` on ASCII data. -/
def upperString (s : String) : String := ⟨s.data.map Char.toUpper⟩

/-- JS `toLowerCase()` on ASCII data. -/
def lowerString (s : String) : String := ⟨s.data.map Char.toLower⟩

/-- `sanitizeToken(value)`: replace non-alphanumeric runs by `_`, collapse,
trim leading/trailing `_`, uppercase.  The regex pipeline is exactly
"uppercase the alphanumeric runs and join them with single underscores". -/
def sanitizeToken (s : String) : String :=
  joinSep "_" ((tokens s).map upperString)

/-- `part[0].toUpperCase() + part.slice(1)` of `titleCase`. -/
def capitalizeWord (s : String) : String :=
  match s.data with
  | [] => ""
  | c :: cs => ⟨c.toUpper :: cs⟩

/-- `titleCase(value)`: lowercase, split on whitespace, capitalize each
word, join with single spaces. -/
def titleCase (s : String) : String :=
  joinSep " "
    (((splitRuns Char.isWhitespace (lowerString s).data).map (fun l => capitalizeWord ⟨l⟩)))

/-- Strict lexicographic comparison of character lists by code point:
JS `<` on strings (and `localeCompare`'s order on the ASCII
identifier-like data handled here). -/
def listLT : List Char → List Char → Bool
  | [], [] => false
  | [], _ :: _ => true
  | _ :: _, [] => false
  | a :: as, b :: bs => a.toNat < b.toNat || (a = b && listLT as bs)

def strLT (a b : String) : Bool := listLT a.data b.data

def strLE (a b : String) : Bool := strLT a b || a == b

/-- `a.startsWith(b)`. -/
def strStartsWith (a b : String) : Bool := b.data.isPrefixOf a.data

/-- `a.endsWith(b)`. -/
def strEndsWith (a b : String) : Bool := b.data.reverse.isPrefixOf a.data.reverse

/-- `a.slice(0, -1)`. -/
def strDropLast (a : String) : String := ⟨a.data.dropLast⟩

/-- `a.trim()`. -/
def strTrim (a : String) : String :=
  ⟨((a.data.dropWhile Char.isWhitespace).reverse.dropWhile Char.isWhitespace).reverse⟩

/-- `VARIANT_TOKENS` of `src/lib/canon.ts` (the curated variant
vocabulary; `VARIANT_TOKEN_SET` has the same membership). -/
def variantTokens : List String :=
  ["1", "1T", "2", "25", "3", "A", "A1", "A2", "AA", "ALPHA", "ANDROMEDA",
   "ANTARES", "AQUILA", "ARCHIMEDES", "ARGOS", "ATLS", "BETA", "BIS2950",
   "BIS2951", "BLACK", "BLADE", "BLUE", "C", "C1", "C2", "CARBON", "CARGO",
   "CITIZENCON2018", "CIVILIAN", "CL", "COMET", "COMPETITION", "CROCODILE",
   "DELTA", "DS", "DUNESTALKER", "DUNLEVY", "DUR", "ECLIPSE", "EMERALD",
   "ES", "EX", "EXEC", "EXECUTIVE", "EXPEDITION", "F7C", "F7CM", "F7CR",
   "F7CS", "F8", "F8C", "FIREBIRD", "FORCE", "FORTUNE", "FREELANCER",
   "FURY", "GAMMA", "GEMINI", "GEO", "GLADIUS", "GLAIVE", "GRAD01",
   "GRAD02", "GRAD03", "GUARDIAN", "HAMMERHEAD", "HARBINGER", "HEARTSEEKER",
   "HOPLITE", "IKTI", "INDUST", "INDUSTRIAL", "INFERNO", "ION", "JAVELIN",
   "KUE", "LN", "LX", "M", "M2", "MAKO", "MAX", "MEDIC", "MEDIVAC",
   "MERLIN", "MILITARY", "MILT", "MIRU", "MK1", "MK2", "MOD", "MR", "MT",
   "MX", "NOX", "OMEGA", "P", "PEREGRINE", "PHOENIX", "PINK", "PIR",
   "PIRATE", "PISCES", "PLAT", "PROSPECTOR", "PULSE", "QI", "RAMBLER",
   "RAVEN", "RAZOR", "RC", "RECLAIMER", "RED", "REDEEMER", "RELIANT",
   "RENEGADE", "RETALIATOR", "RN", "ROVER", "RUNNER", "SABRE", "SCOUT",
   "SCYTHE", "SEN", "SENTINEL", "SHOWDOWN", "SHRIKE", "SNOWBLIND",
   "STALKER", "STARFARER", "STEALTH", "STEALTHINDUSTRIAL", "STEEL",
   "SYULEN", "TAC", "TALUS", "TANA", "TAURUS", "TITAN", "TOURING", "TR",
   "TRANSPORT", "TRIAGE", "UTILITY", "VALIANT", "VANGUARD", "VELOCITY",
   "WARLOCK", "WILDFIRE", "WOLF", "YELLOW"]

/-- `EDITION_KEYWORDS` of `src/lib/canon.ts`. -/
def editionKeywords : List String :=
  ["IAE", "INVICTUS", "WARBOND", "SHOWFLOOR", "SHOWROOM", "FOUNDATION",
   "FOUNDER", "PROMO", "LIVERY", "PAINT", "REFERRAL", "BUNDLE", "PACK",
   "JUBILEE", "LIMITED", "EDITION", "EVENT"]

/-- The `bestKnown` update of `extractVariantCode`'s loop: replace when
the token is a vocabulary member and is longer, or of equal length and
lexicographically smaller, than the current best. -/
def pickBetter (bestKnown : Option String) (normalized : String) : Option String :=
  if variantTokens.contains normalized then
    match bestKnown with
    | none => some normalized
    | some b =>
      if normalized.length > b.length ∨
          (normalized.length = b.length ∧ strLT normalized b) then
        some normalized
      else some b
  else bestKnown

/-- The `fallback` update of `extractVariantCode`'s loop: keep the first
non-empty sanitized token. -/
def pickFallback (fallback : Option String) (normalized : String) : Option String :=
  match fallback with
  | some f => some f
  | none => some normalized

/-- Loop body of `extractVariantCode`: walks the token list carrying the
best known vocabulary match and the first-token fallback, exactly as the
`for` loop over `tokens(source)` does. -/
def pickVariant : List String → Option String → Option String → String
  | [], bestKnown, fallback => (bestKnown.getD (fallback.getD "BASE"))
  | t :: ts, bestKnown, fallback =>
    let normalized := sanitizeToken t
    if normalized = "" then pickVariant ts bestKnown fallback
    else if normalized = "BASE" then "BASE"
    else pickVariant ts (pickBetter bestKnown normalized) (pickFallback fallback normalized)

/-- `extractVariantCode(source)`.  `!source` covers the empty string. -/
def extractVariantCode (source : String) : String :=
  if source = "" then "BASE" else pickVariant (tokens source) none none

/-- JS truthiness on an optional string: `null`/`undefined`/`""` are falsy. -/
def jsTruthy (o : Option String) : Option String :=
  match o with
  | some s => if s = "" then none else some s
  | none => none

/-- The manufacturer token set built at the top of `cleanFamilyName`:
the sanitized manufacturer, its singular form when it ends in `S`, and
the sanitized individual tokens of the manufacturer string. -/
def familyManufacturerTokens (manufacturer : Option String) : List String :=
  match jsTruthy manufacturer with
  | none => []
  | some m =>
    let normalized := sanitizeToken m
    (if strEndsWith normalized "S" then [normalized, strDropLast normalized]
     else [normalized]) ++ (tokens m).map sanitizeToken

/-- The filter predicate of `cleanFamilyName` (true = token kept). -/
def familyKeep (variantToken : String) (manufacturerTokens : List String)
    (token : String) : Bool :=
  let upper := sanitizeToken token
  if upper = "" then false
  else if upper = variantToken then false
  else if upper ≠ "BASE" ∧ variantTokens.contains upper then false
  else if editionKeywords.contains upper then false
  else if manufacturerTokens.contains upper then false
  else if manufacturerTokens.any
      (fun cand => cand ≠ "" && (strStartsWith upper cand || strStartsWith cand upper)) then false
  else true

/-- `cleanFamilyName(input, variantCode, manufacturer)`. -/
def cleanFamilyName (input variantCode : String) (manufacturer : Option String) : String :=
  let filtered := (tokens input).filter
    (familyKeep (sanitizeToken variantCode) (familyManufacturerTokens manufacturer))
  if filtered.isEmpty then sanitizeToken input
  else joinSep "_" (filtered.map sanitizeToken)

/-- `buildHullKey(manufacturer, family)`. -/
def buildHullKey (manufacturer family : Option String) : String :=
  (match jsTruthy manufacturer with
   | some m => sanitizeToken m
   | none => "UNKNOWN") ++ "_" ++
  (match jsTruthy family with
   | some f => sanitizeToken f
   | none => "HULL")

/-- `toCanonicalVariantExtId(hullKey, variantCode)`. -/
def toCanonicalVariantExtId (hullKey variantCode : String) : String :=
  hullKey ++ "_" ++ sanitizeToken variantCode

/-- `canonicalVariantName(baseName, variantCode)`. -/
def canonicalVariantName (baseName variantCode : String) : String :=
  if variantCode = "BASE" then titleCase baseName
  else titleCase baseName ++ " " ++ variantCode

/-- A word character in the sense of the regex `\b` boundary: `[A-Za-z0-9_]`. -/
def isWordChar (c : Char) : Bool := isAlnumChar c || c = '_'

/-- Case-insensitive match of keyword `kw` at position `i` of `chars` with
`\b` boundaries on both sides (the keywords are uppercase alphanumeric). -/
def keywordMatchAt (chars : List Char) (i : Nat) (kw : String) : Bool :=
  (((chars.drop i).take kw.data.length).map Char.toUpper == kw.data)
  && (i == 0 || !isWordChar (chars.getD (i - 1) ' '))
  && !isWordChar (chars.getD (i + kw.data.length) ' ')

/-- Leftmost match of `new RegExp('\\b(kw1|kw2|...)\\b', 'i')` against the
character list, scanning positions left to right and alternatives in
order; returns the match position and length. -/
def regexFindAux (kws : List String) (chars : List Char) : Nat → Nat → Option (Nat × Nat)
  | 0, _ => none
  | fuel + 1, i =>
    match kws.find? (fun kw => keywordMatchAt chars i kw) with
    | some kw => some (i, kw.data.length)
    | none => regexFindAux kws chars fuel (i + 1)

def regexFind (kws : List String) (s : String) : Option (Nat × Nat) :=
  regexFindAux kws s.data (s.data.length + 1) 0

/-- `regex.test(s)` for a `\b(kw1|...)\b` alternation regex. -/
def regexTest (kws : List String) (s : String) : Bool :=
  (regexFind kws s).isSome

/-- Priority score of `detectEditionOrLivery`'s sort: `IAE` then
`INVICTUS` first, everything else after (`priority.indexOf`, `-1` mapped
to `priority.length`). -/
def editionScore (v : String) : Nat :=
  if v = "IAE" then 0 else if v = "INVICTUS" then 1 else 2

/-- The (non-strict) order realized by the comparator of
`detectEditionOrLivery`'s `detected.sort`: priority score, then
`localeCompare` (lexicographic on these uppercase keywords). -/
def editionLEb (a b : String) : Bool :=
  editionScore a < editionScore b || (editionScore a == editionScore b && strLE a b)

/-- Stable insertion sort; models `Array.prototype.sort` with a consistent
comparator (`le` is the "compares ≤ 0" relation of the comparator). -/
def orderedInsert (le : α → α → Bool) (a : α) : List α → List α
  | [] => [a]
  | b :: l => if le a b then a :: b :: l else b :: orderedInsert le a l

def insertionSortB (le : α → α → Bool) : List α → List α
  | [] => []
  | a :: l => orderedInsert le a (insertionSortB le l)

structure EditionDetection where
  editionCode : Option String
  livery : Option String
deriving DecidableEq, Repr

/-- `detectEditionOrLivery(name)`. -/
def detectEditionOrLivery (name : String) : EditionDetection :=
  if name = "" then ⟨none, none⟩ else
  let detected := ((tokens name).map upperString).filter
    (fun u => editionKeywords.contains u)
  let editionCode :=
    if detected.isEmpty then none
    else some (sanitizeToken (joinSep "_" (insertionSortB editionLEb detected)))
  let livery :=
    match regexFind ["LIVERY", "PAINT"] name with
    | none => none
    | some (i, len) =>
      let tail := strTrim (String.mk (name.data.drop (i + len)))
      if tail = "" then none
      else
        let summary := joinSep " " ((tokens tail).take 3)
        if summary = "" then none else some (titleCase summary)
  ⟨editionCode, livery⟩

/-- `isEditionOnly(name)`. -/
def isEditionOnly (name : String) : Bool :=
  if name = "" then false
  else if extractVariantCode name != "BASE" then false
  else regexTest editionKeywords name

/-! ## The deduplication resolver of `scripts/migrate_dedup_variants.ts` -/

/-- `value.split(sep)` for a single-character separator: all fields,
including empty ones (JS `split` does not drop them). -/
def splitOnCharAux (sep : Char) : List Char → List Char → List (List Char)
  | [], acc => [acc.reverse]
  | c :: cs, acc =>
    if c = sep then acc.reverse :: splitOnCharAux sep cs []
    else splitOnCharAux sep cs (c :: acc)

def splitOnChar (sep : Char) (s : String) : List String :=
  (splitOnCharAux sep s.data []).map (fun l => ⟨l⟩)

/-- `familyName.replace(/_/g, ' ')`. -/
def underscoresToSpaces (s : String) : String :=
  ⟨s.data.map (fun c => if c = '_' then ' ' else c)⟩

/-- The `manufacturer` field of a raw ship row:
`{ id?, code?, external_id? } | string | null` (only `code` and
`external_id` of the object form are read). -/
inductive MfrRef where
  | obj (code ext : Option String)
  | str (s : String)
deriving DecidableEq, Repr

structure ShipRecord where
  id : String
  external_id : String
  name : Option String
  manufacturer : Option MfrRef
deriving DecidableEq, Repr

/-- `manufacturerCodeFromShip(ship)`. -/
def manufacturerCodeFromShip (ship : ShipRecord) : String :=
  match ship.manufacturer with
  | some (.obj code ext) =>
    (match jsTruthy code with
     | some c => c
     | none =>
       match jsTruthy ext with
       | some e => e
       | none =>
         if ship.external_id.data.contains '_' then
           (splitOnChar '_' ship.external_id).headD ""
         else "UNKNOWN")
  | some (.str s) => s
  | none =>
    if ship.external_id.data.contains '_' then
      (splitOnChar '_' ship.external_id).headD ""
    else "UNKNOWN"

structure HullInfo where
  hullKey : String
  baseName : String
deriving DecidableEq, Repr

/-- `canonicalHullForShip(ship)`. -/
def canonicalHullForShip (ship : ShipRecord) : HullInfo :=
  let manufacturer := manufacturerCodeFromShip ship
  let variantCode := extractVariantCode (ship.name.getD ship.external_id)
  let familyName := cleanFamilyName ship.external_id variantCode (some manufacturer)
  let hullKey := buildHullKey (some manufacturer) (some familyName)
  ⟨hullKey, underscoresToSpaces familyName⟩

/-- Association list with JS `Map` semantics: `set` updates the existing
entry in place or appends a new one; `get` finds the entry.  Keys stay
unique because `mapSet` only appends absent keys. -/
def mapGet (m : List (String × α)) (k : String) : Option α :=
  match m with
  | [] => none
  | e :: rest => if e.1 = k then some e.2 else mapGet rest k

def mapSet (m : List (String × α)) (k : String) (v : α) : List (String × α) :=
  match m with
  | [] => [(k, v)]
  | e :: rest => if e.1 = k then (k, v) :: rest else e :: mapSet rest k v

/-- `hullKeyByShipId`: built over the `ships` loop (records lacking a
truthy `id` or `external_id` are skipped). -/
def buildHullMap (ships : List ShipRecord) : List (String × HullInfo) :=
  ships.foldl
    (fun m ship =>
      if ship.id = "" ∨ ship.external_id = "" then m
      else mapSet m ship.id (canonicalHullForShip ship))
    []

/-- A raw `ship_variants` row; `ship` holds the result of
`normaliseId(variant.ship)`. -/
structure ShipVariantRecord where
  id : String
  external_id : String
  ship : Option String
  name : Option String
deriving DecidableEq, Repr

/-- One element of `entry.candidates` in the resolver. -/
structure Candidate where
  id : String
  external_id : String
  name : Option String
  editionCode : Option String
  livery : Option String
  editionOnly : Bool
deriving DecidableEq, Repr

/-- One entry of `canonicalMap` (key and value merged; the key is
`canonicalId`). -/
structure GroupEntry where
  canonicalId : String
  hullKey : String
  baseName : String
  candidates : List Candidate
deriving DecidableEq, Repr

/-- What the variants loop computes for one record: the canonical variant
id it resolves to, the hull info that produced it, and the candidate
pushed into its group; `none` when the record is skipped (`continue`). -/
def candidateOfVariant (hm : List (String × HullInfo)) (v : ShipVariantRecord) :
    Option (String × HullInfo × Candidate) :=
  if v.id = "" then none
  else
    match jsTruthy v.ship with
    | none => none
    | some shipRef =>
      match mapGet hm shipRef with
      | none => none
      | some hullRef =>
        let nameSource := v.name.getD v.external_id
        let variantCode :=
          extractVariantCode (if nameSource = "" then v.external_id else nameSource)
        let canonicalId := toCanonicalVariantExtId hullRef.hullKey variantCode
        let edition := detectEditionOrLivery nameSource
        some (canonicalId, hullRef,
          ⟨v.id, v.external_id, v.name, edition.editionCode, edition.livery,
           isEditionOnly nameSource⟩)

/-- Append candidate `c` to the entry keyed `cid`, creating the entry (at
the end, as JS `Map.set` does for a fresh key) when absent. -/
def pushCandidate (groups : List GroupEntry) (cid hull base : String) (c : Candidate) :
    List GroupEntry :=
  match groups with
  | [] => [⟨cid, hull, base, [c]⟩]
  | e :: rest =>
    if e.canonicalId = cid then { e with candidates := e.candidates ++ [c] } :: rest
    else e :: pushCandidate rest cid hull base c

def collectStep (hm : List (String × HullInfo)) (groups : List GroupEntry)
    (v : ShipVariantRecord) : List GroupEntry :=
  match candidateOfVariant hm v with
  | none => groups
  | some (cid, hullRef, c) => pushCandidate groups cid hullRef.hullKey hullRef.baseName c

/-- The grouping pass: `canonicalMap` after the `for (const variant of
variants)` loop, in insertion order. -/
def collectGroups (hm : List (String × HullInfo)) (variants : List ShipVariantRecord) :
    List GroupEntry :=
  variants.foldl (collectStep hm) []

/-- The sort key's primary component: `0` on exact external-id match with
the canonical id, else `2` for edition-only candidates, else `1`. -/
def sortClass (cid : String) (c : Candidate) : Nat :=
  if c.external_id = cid then 0 else if c.editionOnly then 2 else 1

/-- "Comparator compares ≤ 0" relation of the keeper sort: class first,
then `localeCompare` on `external_id`. -/
def keeperLEb (cid : String) (a b : Candidate) : Bool :=
  if sortClass cid a = sortClass cid b then strLE a.external_id b.external_id
  else sortClass cid a < sortClass cid b

structure KeeperUpdate where
  id : String
  external_id : String
  variant_code : String
  name : String
deriving DecidableEq, Repr

structure RunState where
  migrationMap : List (String × String)
  editionMetadata : List (String × (Option String × Option String))
  keeperUpdates : List KeeperUpdate
  variantsToDelete : List String
  mergeLog : List (String × List String)
deriving DecidableEq, Repr

def initState : RunState := ⟨[], [], [], [], []⟩

/-- Body of `for (const duplicate of duplicates)`: migration-map entry,
deletion-list push, and (for truthy edition metadata) the
`editionMetadata` record. -/
def processDuplicate (cid : String) (st : RunState) (dup : Candidate) : RunState :=
  let st := { st with
    migrationMap := mapSet st.migrationMap dup.id cid,
    variantsToDelete := st.variantsToDelete ++ [dup.id] }
  if (jsTruthy dup.editionCode).isSome ∨ (jsTruthy dup.livery).isSome then
    { st with editionMetadata :=
        mapSet st.editionMetadata dup.id (dup.editionCode, dup.livery) }
  else st

/-- The keeper's share of the loop body: the migration-map entry for the
keeper itself and, when its external id differs from the canonical id,
the rewrite pushed onto `keeperUpdates` (variant code = last
underscore-segment of the canonical id, display name regenerated from
the group's base name). -/
def keeperStep (st : RunState) (e : GroupEntry) (keeper : Candidate) : RunState :=
  let st := { st with migrationMap := mapSet st.migrationMap keeper.id e.canonicalId }
  if keeper.external_id ≠ e.canonicalId then
    let variantCode := ((splitOnChar '_' e.canonicalId).getLast?).getD "BASE"
    let displayName := canonicalVariantName e.baseName variantCode
    { st with keeperUpdates :=
        st.keeperUpdates ++ [⟨keeper.id, e.canonicalId, variantCode, displayName⟩] }
  else st

/-- The merge-log push closing the loop body. -/
def mergeLogStep (st : RunState) (e : GroupEntry) (dups : List Candidate) : RunState :=
  { st with mergeLog := st.mergeLog ++ [(e.canonicalId, dups.map (·.external_id))] }

/-- Body of `for (const entry of canonicalMap.values())`: sort, pick the
keeper, record the keeper rewrite when needed, then fold the duplicates
into the migration map, deletion list and edition metadata. -/
def processEntry (st : RunState) (e : GroupEntry) : RunState :=
  match insertionSortB (keeperLEb e.canonicalId) e.candidates with
  | [] => st
  | keeper :: duplicates =>
    mergeLogStep
      (duplicates.foldl (processDuplicate e.canonicalId) (keeperStep st e keeper))
      e duplicates

def resolveGroups (groups : List GroupEntry) : RunState :=
  groups.foldl processEntry initState

/-- One full resolution pass of the migration script over the given ships
and variants: the groups and the resulting state. -/
def runMigration (ships : List ShipRecord) (variants : List ShipVariantRecord) :
    List GroupEntry × RunState :=
  let hm := buildHullMap ships
  let groups := collectGroups hm variants
  (groups, resolveGroups groups)

/-- The keeper the script selects for canonical id `cid`: the head of the
sorted candidate list of that group. -/
def keeperOf (groups : List GroupEntry) (cid : String) : Option Candidate :=
  match groups.find? (fun e => e.canonicalId == cid) with
  | none => none
  | some e => (insertionSortB (keeperLEb e.canonicalId) e.candidates).head?

/-- The sorted candidate list of one group. -/
def sortedCandidates (e : GroupEntry) : List Candidate :=
  insertionSortB (keeperLEb e.canonicalId) e.candidates

/-- The keeper of one group entry. -/
def keeperOfEntry (e : GroupEntry) : Option Candidate :=
  (sortedCandidates e).head?

/-- The duplicates of one group entry (`candidates.slice(1)` after the
sort). -/
def groupDuplicates (e : GroupEntry) : List Candidate :=
  (sortedCandidates e).tail

/-- The candidate list the grouping pass accumulated under canonical id
`cid`. -/
def candidatesIn (groups : List GroupEntry) (cid : String) : List Candidate :=
  match groups.find? (fun e => e.canonicalId == cid) with
  | some e => e.candidates
  | none => []

/-- The groups that hold a candidate whose raw id is `k`. -/
def groupsContaining (groups : List GroupEntry) (k : String) : List GroupEntry :=
  groups.filter (fun e => e.candidates.any (fun c => c.id == k))

/-- The candidate record `v` contributes to the group keyed `cid`, when
it resolves there. -/
def variantCandFor (hm : List (String × HullInfo)) (cid : String)
    (v : ShipVariantRecord) : Option Candidate :=
  match candidateOfVariant hm v with
  | some (c, _, cand) => if c = cid then some cand else none
  | none => none

/-- All duplicate ids scheduled for deletion, group by group. -/
def allDuplicateIds (groups : List GroupEntry) : List String :=
  (groups.map (fun e => (groupDuplicates e).map (·.id))).flatten

/-! ## The foreign-key cascade on `installed_items` -/

structure InstalledItemRecord where
  id : String
  ship_variant : Option String
  profile : Option String
  livery : Option String
deriving DecidableEq, Repr

structure InstalledUpdate where
  id : String
  ship_variant : String
  profile : Option String
  livery : Option String
deriving DecidableEq, Repr

/-- Loop body of `for (const installed of installedItems)`: repoint the
variant reference and resolve profile/livery as
`edition?.profile ?? installed.profile ?? null` (resp. livery). -/
def cascadeOne (mig : List (String × String))
    (ed : List (String × (Option String × Option String)))
    (i : InstalledItemRecord) : Option InstalledUpdate :=
  match jsTruthy i.ship_variant with
  | none => none
  | some variantRef =>
    match mapGet mig variantRef with
    | none => none
    | some canonical =>
      if canonical = "" ∨ canonical = variantRef then none
      else
        let edition := mapGet ed variantRef
        some ⟨i.id, canonical,
          (edition.bind Prod.fst).orElse (fun _ => i.profile),
          (edition.bind Prod.snd).orElse (fun _ => i.livery)⟩

def cascadeInstalled (mig : List (String × String))
    (ed : List (String × (Option String × Option String)))
    (items : List InstalledItemRecord) : List InstalledUpdate :=
  items.filterMap (cascadeOne mig ed)

/-! ## The variant-group construction of `src/transform.ts`

The ship-record loop of `transform` (the part building `variantGroups`).
The raw payload's duplicate field casings (`name`/`Name`, etc.) are
collapsed into one optional field each, and `manufacturerId` holds the
already-coalesced manufacturer source (`coalesce(...)` of the raw
fields); `optionalString` is applied where the loop applies it. -/

/-- `optionalString(value)`: a string whose trim is non-empty, else
`undefined`. -/
def optStr (o : Option String) : Option String :=
  match o with
  | some s => if strTrim s = "" then none else some s
  | none => none

structure TShip where
  externalId : String
  name : Option String
  className : Option String
  description : Option String
  manufacturerId : Option String
deriving DecidableEq, Repr

structure TMember where
  variantId : String
  record : TShip
  profile : Option String
  livery : Option String
  isEditionOnly : Bool
deriving DecidableEq, Repr

structure TGroup where
  variantId : String
  hullKey : String
  variantCode : String
  baseName : String
  names : List String
  descriptions : List String
  records : List TMember
deriving DecidableEq, Repr

/-- `Set.add`: append if absent (JS sets keep insertion order, dedupe). -/
def setAdd (l : List String) (x : String) : List String :=
  if l.contains x then l else l ++ [x]

/-- `displayName` of the loop:
`optionalString(ship.name) ?? optionalString(ship.ClassName) ?? rawShipId`. -/
def tDisplayName (s : TShip) : String :=
  ((optStr s.name).orElse (fun _ => optStr s.className)).getD s.externalId

/-- `classificationSource`: `optionalString(ship.ClassName) ?? displayName`. -/
def tClassificationSource (s : TShip) : String :=
  (optStr s.className).getD (tDisplayName s)

def tVariantCode (s : TShip) : String :=
  extractVariantCode (tDisplayName s ++ " " ++ tClassificationSource s)

def tFamilyName (s : TShip) (manufacturerExternalId : String) : String :=
  cleanFamilyName (tClassificationSource s) (tVariantCode s) (some manufacturerExternalId)

/-- The pushes done for every record once its group exists: append the
loadout record, then the conditional name/description set additions. -/
def applyMemberAdds (g : TGroup) (cid : String) (s : TShip)
    (editionCode livery : Option String) (editionOnly : Bool)
    (displayName : String) (descriptionCandidate : Option String) : TGroup :=
  let g := { g with records := g.records ++ [⟨cid, s, editionCode, livery, editionOnly⟩] }
  let g :=
    if ¬editionOnly ∧ displayName ≠ "" then { g with names := setAdd g.names displayName }
    else g
  let g :=
    if editionCode.isSome then
      { g with names := setAdd g.names (canonicalVariantName g.baseName (tVariantCode s)) }
    else g
  match descriptionCandidate with
  | some d => { g with descriptions := setAdd g.descriptions d }
  | none => g

/-- Update `variantGroups` for one ship record (creation on first sight,
then the additive name/description/record pushes). -/
def tUpdateGroup (groups : List TGroup) (cid hullKey variantCode familyName : String)
    (s : TShip) (editionCode livery : Option String) (editionOnly : Bool)
    (displayName : String) (descriptionCandidate : Option String) : List TGroup :=
  match groups with
  | [] =>
    let baseName := underscoresToSpaces familyName
    let g : TGroup :=
      ⟨cid, hullKey, variantCode, baseName,
       [canonicalVariantName baseName variantCode], [], []⟩
    [applyMemberAdds g cid s editionCode livery editionOnly displayName descriptionCandidate]
  | g :: rest =>
    if g.variantId = cid then
      applyMemberAdds g cid s editionCode livery editionOnly displayName descriptionCandidate
        :: rest
    else
      g :: tUpdateGroup rest cid hullKey variantCode familyName s editionCode livery
        editionOnly displayName descriptionCandidate

/-- One iteration of `for (const record of shipRecords)` restricted to
its effect on `variantGroups` (ships without a truthy manufacturer
reference are skipped). -/
def tStep (groups : List TGroup) (s : TShip) : List TGroup :=
  match jsTruthy s.manufacturerId with
  | none => groups
  | some manufacturerExternalId =>
    let displayName := tDisplayName s
    let variantCode := tVariantCode s
    let familyName := tFamilyName s manufacturerExternalId
    let hullKey := buildHullKey (some manufacturerExternalId) (some familyName)
    let canonicalVariantId := toCanonicalVariantExtId hullKey variantCode
    let editionInfo := detectEditionOrLivery displayName
    let editionOnly := isEditionOnly displayName
    let descriptionCandidate := optStr s.description
    tUpdateGroup groups canonicalVariantId hullKey variantCode familyName s
      editionInfo.editionCode editionInfo.livery editionOnly displayName descriptionCandidate

/-- `variantGroups` after the ship-record loop of `transform`. -/
def transformGroups (ships : List TShip) : List TGroup :=
  ships.foldl tStep []

/-- The amended no-data-loss property of a built group: every member that
is not edition-only and has a non-empty display name has that display
name in the group's name set, and every member-supplied description is in
the group's description set. -/
def tNoDataLoss (g : TGroup) : Prop :=
  ∀ m ∈ g.records,
    (m.isEditionOnly = false → tDisplayName m.record ≠ "" →
      tDisplayName m.record ∈ g.names) ∧
    ∀ d, optStr m.record.description = some d → d ∈ g.descriptions

/-! ## Foundations: tokenizer and sanitizer -/

theorem splitRunsAux_mem (sep : Char → Bool) :
    ∀ (cs acc : List Char), (∀ c ∈ acc, sep c = false) →
      ∀ t ∈ splitRunsAux sep cs acc, t ≠ [] ∧ ∀ c ∈ t, sep c = false := by
  intro cs
  induction cs with
  | nil =>
    intro acc hacc t ht
    simp only [splitRunsAux] at ht
    by_cases h : acc.isEmpty <;> simp [h] at ht
    subst ht
    refine ⟨by simpa using (List.isEmpty_eq_false.mp (by simpa using h)), ?_⟩
    intro c hc
    exact hacc c (List.mem_reverse.mp hc)
  | cons c cs ih =>
    intro acc hacc t ht
    simp only [splitRunsAux] at ht
    by_cases hsep : sep c
    · simp only [hsep, if_true] at ht
      by_cases haccE : acc.isEmpty
      · simp only [haccE, if_true] at ht
        exact ih [] (by simp) t ht
      · simp only [haccE, if_false] at ht
        rcases List.mem_cons.mp ht with ht | ht
        · subst ht
          refine ⟨by simpa using (List.isEmpty_eq_false.mp (by simpa using haccE)), ?_⟩
          intro x hx
          exact hacc x (List.mem_reverse.mp hx)
        · exact ih [] (by simp) t ht
    · simp only [hsep, if_false] at ht
      refine ih (c :: acc) ?_ t ht
      intro x hx
      rcases List.mem_cons.mp hx with hx | hx
      · subst hx; simpa using hsep
      · exact hacc x hx

theorem splitRunsAux_ne_nil (sep : Char → Bool) :
    ∀ (cs acc : List Char), ((∃ c ∈ cs, sep c = false) ∨ acc ≠ []) →
      splitRunsAux sep cs acc ≠ [] := by
  intro cs
  induction cs with
  | nil =>
    intro acc h
    rcases h with h | h
    · simp at h
    · simp only [splitRunsAux]
      rw [if_neg (by simpa using h)]
      simp
  | cons c cs ih =>
    intro acc h
    simp only [splitRunsAux]
    by_cases hsep : sep c
    · rw [if_pos hsep]
      by_cases hacc : acc.isEmpty
      · rw [if_pos hacc]
        refine ih [] (Or.inl ?_)
        rcases h with h | h
        · rcases h with ⟨x, hx, hx2⟩
          rcases List.mem_cons.mp hx with rfl | hx
          · rw [hsep] at hx2; cases hx2
          · exact ⟨x, hx, hx2⟩
        · exact absurd (List.isEmpty_iff.mp hacc) h
      · rw [if_neg hacc]; simp
    · rw [if_neg hsep]
      exact ih (c :: acc) (Or.inr (by simp))

theorem mem_tokens_props {s t : String} (h : t ∈ tokens s) :
    t.data ≠ [] ∧ ∀ c ∈ t.data, isAlnumChar c = true := by
  simp only [tokens, List.mem_map] at h
  rcases h with ⟨l, hl, rfl⟩
  have := splitRunsAux_mem (fun c => !isAlnumChar c) s.data [] (by simp) l hl
  exact ⟨this.1, fun c hc => by simpa using this.2 c hc⟩

theorem tokens_ne_nil {s : String} (h : ∃ c ∈ s.data, isAlnumChar c = true) :
    tokens s ≠ [] := by
  simp only [tokens]
  intro hcon
  have hnil := List.map_eq_nil_iff.mp hcon
  refine splitRunsAux_ne_nil (fun c => !isAlnumChar c) s.data [] (Or.inl ?_) hnil
  rcases h with ⟨c, hc, hc2⟩
  exact ⟨c, hc, by simpa using hc2⟩

theorem joinSep_length_ge (sep x : String) (xs : List String) :
    x.length ≤ (joinSep sep (x :: xs)).length := by
  cases xs with
  | nil => simp [joinSep]
  | cons y ys =>
    simp only [joinSep, String.length_append]
    omega

theorem ne_empty_of_length_pos {s : String} (h : 0 < s.length) : s ≠ "" := by
  intro he
  subst he
  simp at h

theorem length_pos_of_data_ne {s : String} (h : s.data ≠ []) : 0 < s.length := by
  have : s.data.length ≠ 0 := fun hc => h (List.length_eq_zero.mp hc)
  have hlen : s.length = s.data.length := rfl
  omega

theorem length_pos_of_ne_empty {s : String} (h : s ≠ "") : 0 < s.length := by
  refine length_pos_of_data_ne ?_
  intro hc
  apply h
  cases s with
  | mk d =>
    have hd : d = [] := hc
    subst hd
    rfl

theorem upperString_data (s : String) : (upperString s).data = s.data.map Char.toUpper := rfl

theorem sanitizeToken_ne_empty {s : String} (h : tokens s ≠ []) : sanitizeToken s ≠ "" := by
  rcases List.exists_cons_of_ne_nil h with ⟨t, ts, hts⟩
  have htmem : t ∈ tokens s := by rw [hts]; simp
  have hdata := (mem_tokens_props htmem).1
  have h1 : 0 < (upperString t).length := by
    refine length_pos_of_data_ne ?_
    rw [upperString_data]
    simpa using hdata
  have h3 : (upperString t).length ≤ (sanitizeToken s).length := by
    unfold sanitizeToken
    rw [hts]
    simpa using joinSep_length_ge "_" (upperString t) (ts.map upperString)
  exact ne_empty_of_length_pos (by omega)

theorem sanitizeToken_of_tokens_nil {s : String} (h : tokens s = []) :
    sanitizeToken s = "" := by
  unfold sanitizeToken
  rw [h]
  rfl

/-! ## Claim C9: totality and non-emptiness of the family-name fallback -/

/-- C9 counterexample: on an all-punctuation designation the token filter
removes every token and the fallback `sanitizeToken(input)` is itself
empty, so `cleanFamilyName` returns the empty string, contradicting the
claim that the result is non-empty for every input including
all-punctuation strings. -/
theorem cleanFamilyName_empty_on_punctuation :
    cleanFamilyName "---" "CL" (some "RSI") = "" := by decide

/-- C9 (amended): `cleanFamilyName` returns a non-empty family name for
every input that contains at least one alphanumeric character; when token
filtering removes every token it falls back to sanitizing the whole input
string, which is non-empty exactly under that condition. -/
theorem cleanFamilyName_ne_empty (input variantCode : String) (manufacturer : Option String)
    (h : ∃ c ∈ input.data, isAlnumChar c = true) :
    cleanFamilyName input variantCode manufacturer ≠ "" := by
  unfold cleanFamilyName
  by_cases hemp : ((tokens input).filter
      (familyKeep (sanitizeToken variantCode) (familyManufacturerTokens manufacturer))).isEmpty
  · rw [if_pos hemp]
    exact sanitizeToken_ne_empty (tokens_ne_nil h)
  · rw [if_neg hemp]
    have hne : (tokens input).filter
        (familyKeep (sanitizeToken variantCode) (familyManufacturerTokens manufacturer)) ≠ [] := by
      intro hnil
      exact hemp (by rw [hnil]; rfl)
    rcases List.exists_cons_of_ne_nil hne with ⟨t, ts, hts⟩
    have htfil : t ∈ (tokens input).filter
        (familyKeep (sanitizeToken variantCode) (familyManufacturerTokens manufacturer)) := by
      rw [hts]
      simp
    have htmem : t ∈ tokens input := List.mem_of_mem_filter htfil
    have hprops := mem_tokens_props htmem
    have hsan : sanitizeToken t ≠ "" := by
      refine sanitizeToken_ne_empty (tokens_ne_nil ?_)
      rcases List.exists_cons_of_ne_nil hprops.1 with ⟨c, cs, hcs⟩
      exact ⟨c, by rw [hcs]; simp, hprops.2 c (by rw [hcs]; simp)⟩
    have hlen : (sanitizeToken t).length ≤
        (joinSep "_" ((t :: ts).map sanitizeToken)).length := by
      simpa using joinSep_length_ge "_" (sanitizeToken t) (ts.map sanitizeToken)
    rw [hts]
    exact ne_empty_of_length_pos
      (lt_of_lt_of_le (length_pos_of_ne_empty hsan) hlen)

/-- C9 witness: the amended theorem applied at a concrete designation. -/
theorem cleanFamilyName_ne_empty_witness :
    cleanFamilyName "RSI Zeus Mk II CL" "CL" (some "RSI") ≠ "" :=
  cleanFamilyName_ne_empty "RSI Zeus Mk II CL" "CL" (some "RSI") (by decide)

/-! ## The string order used by the comparators -/

theorem char_eq_of_toNat_eq {a b : Char} (h : a.toNat = b.toNat) : a = b :=
  Char.eq_of_val_eq (UInt32.toNat.inj h)

theorem listLT_irrefl : ∀ l : List Char, listLT l l = false := by
  intro l
  induction l with
  | nil => rfl
  | cons a as ih => simp [listLT, ih]

theorem listLT_trans : ∀ {a b c : List Char},
    listLT a b = true → listLT b c = true → listLT a c = true := by
  intro a
  induction a with
  | nil =>
    intro b c h1 h2
    cases b with
    | nil => simp [listLT] at h1
    | cons x xs =>
      cases c with
      | nil => simp [listLT] at h2
      | cons y ys => rfl
  | cons a as ih =>
    intro b c h1 h2
    cases b with
    | nil => simp [listLT] at h1
    | cons x xs =>
      cases c with
      | nil => simp [listLT] at h2
      | cons y ys =>
        simp only [listLT, Bool.or_eq_true, Bool.and_eq_true, decide_eq_true_eq] at h1 h2 ⊢
        rcases h1 with h1 | ⟨rfl, h1⟩
        · rcases h2 with h2 | ⟨rfl, h2⟩
          · exact Or.inl (by omega)
          · exact Or.inl h1
        · rcases h2 with h2 | ⟨rfl, h2⟩
          · exact Or.inl h2
          · exact Or.inr ⟨rfl, ih h1 h2⟩

theorem listLT_trichotomy : ∀ a b : List Char,
    listLT a b = true ∨ a = b ∨ listLT b a = true := by
  intro a
  induction a with
  | nil =>
    intro b
    cases b with
    | nil => exact Or.inr (Or.inl rfl)
    | cons y ys => exact Or.inl rfl
  | cons a as ih =>
    intro b
    cases b with
    | nil => exact Or.inr (Or.inr rfl)
    | cons y ys =>
      rcases Nat.lt_trichotomy a.toNat y.toNat with h | h | h
      · exact Or.inl (by simp [listLT, h])
      · have hay : a = y := char_eq_of_toNat_eq h
        subst hay
        rcases ih ys with h2 | h2 | h2
        · exact Or.inl (by simp [listLT, h2])
        · exact Or.inr (Or.inl (by rw [h2]))
        · exact Or.inr (Or.inr (by simp [listLT, h2]))
      · exact Or.inr (Or.inr (by simp [listLT, h]))

theorem strLT_asymm {a b : String} (h : strLT a b = true) : strLT b a = false := by
  by_contra hc
  have h2 : strLT b a = true := by
    cases hv : strLT b a
    · exact absurd hv hc
    · rfl
  have := listLT_trans h h2
  rw [listLT_irrefl] at this
  cases this

theorem strLE_refl (a : String) : strLE a a = true := by
  simp [strLE]

theorem strLE_total (a b : String) : strLE a b = true ∨ strLE b a = true := by
  rcases listLT_trichotomy a.data b.data with h | h | h
  · exact Or.inl (by simp [strLE, strLT, h])
  · have hab : a = b := by
      cases a with
      | mk d1 =>
        cases b with
        | mk d2 =>
          have hd : d1 = d2 := h
          rw [hd]
    subst hab
    exact Or.inl (strLE_refl a)
  · exact Or.inr (by simp [strLE, strLT, h])

theorem strLE_trans {a b c : String} (h1 : strLE a b = true) (h2 : strLE b c = true) :
    strLE a c = true := by
  simp only [strLE, Bool.or_eq_true, beq_iff_eq] at h1 h2 ⊢
  rcases h1 with h1 | rfl
  · rcases h2 with h2 | rfl
    · exact Or.inl (listLT_trans h1 h2)
    · exact Or.inl h1
  · rcases h2 with h2 | rfl
    · exact Or.inl h2
    · exact Or.inr rfl

theorem strLE_antisymm {a b : String} (h1 : strLE a b = true) (h2 : strLE b a = true) :
    a = b := by
  simp only [strLE, Bool.or_eq_true, beq_iff_eq] at h1 h2
  rcases h1 with h1 | rfl
  · rcases h2 with h2 | rfl
    · have := listLT_trans h1 h2
      rw [listLT_irrefl] at this
      cases this
    · rfl
  · rfl

theorem strLE_of_strLT {a b : String} (h : strLT a b = true) : strLE a b = true := by
  simp [strLE, h]

/-! ## Claim C8: the variant-code extractor -/

theorem pickVariant_cons_skip {t : String} {ts : List String} {bk fb : Option String}
    (h : sanitizeToken t = "") :
    pickVariant (t :: ts) bk fb = pickVariant ts bk fb := by
  simp only [pickVariant]
  rw [if_pos h]

theorem pickVariant_cons_base {t : String} {ts : List String} {bk fb : Option String}
    (h : sanitizeToken t = "BASE") :
    pickVariant (t :: ts) bk fb = "BASE" := by
  simp only [pickVariant]
  rw [if_neg (by rw [h]; decide), if_pos h]

theorem pickVariant_cons_step {t : String} {ts : List String} {bk fb : Option String}
    (h1 : sanitizeToken t ≠ "") (h2 : sanitizeToken t ≠ "BASE") :
    pickVariant (t :: ts) bk fb =
      pickVariant ts (pickBetter bk (sanitizeToken t)) (pickFallback fb (sanitizeToken t)) := by
  simp only [pickVariant]
  rw [if_neg h1, if_neg h2]

theorem pickBetter_none {n : String} (hc : variantTokens.contains n = true) :
    pickBetter none n = some n := by
  unfold pickBetter
  rw [if_pos hc]

theorem pickBetter_some_better {b n : String} (hc : variantTokens.contains n = true)
    (hbet : n.length > b.length ∨ (n.length = b.length ∧ strLT n b = true)) :
    pickBetter (some b) n = some n := by
  unfold pickBetter
  rw [if_pos hc]
  show (if n.length > b.length ∨ (n.length = b.length ∧ strLT n b = true)
    then some n else some b) = some n
  rw [if_pos hbet]

theorem pickBetter_some_keep {b n : String} (hc : variantTokens.contains n = true)
    (hbet : ¬(n.length > b.length ∨ (n.length = b.length ∧ strLT n b = true))) :
    pickBetter (some b) n = some b := by
  unfold pickBetter
  rw [if_pos hc]
  show (if n.length > b.length ∨ (n.length = b.length ∧ strLT n b = true)
    then some n else some b) = some b
  rw [if_neg hbet]

theorem pickBetter_not_contains {bk : Option String} {n : String}
    (hc : ¬variantTokens.contains n = true) : pickBetter bk n = bk := by
  unfold pickBetter
  rw [if_neg hc]

theorem pickBetter_some_cases {bk : Option String} {n x : String}
    (hx : pickBetter bk n = some x) :
    (variantTokens.contains n = true ∧ x = n) ∨ bk = some x := by
  by_cases hc : variantTokens.contains n = true
  · cases hbkv : bk with
    | none =>
      rw [hbkv, pickBetter_none hc] at hx
      exact Or.inl ⟨hc, (Option.some.inj hx).symm⟩
    | some b =>
      by_cases hbet : n.length > b.length ∨ (n.length = b.length ∧ strLT n b = true)
      · rw [hbkv, pickBetter_some_better hc hbet] at hx
        exact Or.inl ⟨hc, (Option.some.inj hx).symm⟩
      · rw [hbkv, pickBetter_some_keep hc hbet] at hx
        exact Or.inr hx
  · rw [pickBetter_not_contains hc] at hx
    exact Or.inr hx

theorem pickBetter_mem {bk : Option String} {n : String}
    (hbk : ∀ b, bk = some b → b ∈ variantTokens) :
    ∀ x, pickBetter bk n = some x → x ∈ variantTokens := by
  intro x hx
  rcases pickBetter_some_cases hx with ⟨hc, rfl⟩ | hold
  · simpa using hc
  · exact hbk x hold

theorem pickVariant_ne_empty :
    ∀ (ts : List String) (bk fb : Option String),
      (∀ x, bk = some x → x ≠ "") → (∀ x, fb = some x → x ≠ "") →
      pickVariant ts bk fb ≠ "" := by
  intro ts
  induction ts with
  | nil =>
    intro bk fb hbk hfb
    cases bk with
    | some b => exact hbk b rfl
    | none =>
      cases fb with
      | some f => exact hfb f rfl
      | none => decide
  | cons t ts ih =>
    intro bk fb hbk hfb
    by_cases he : sanitizeToken t = ""
    · rw [pickVariant_cons_skip he]
      exact ih bk fb hbk hfb
    · by_cases hb : sanitizeToken t = "BASE"
      · rw [pickVariant_cons_base hb]
        decide
      · rw [pickVariant_cons_step he hb]
        refine ih _ _ ?_ ?_
        · intro x hx
          rcases pickBetter_some_cases hx with ⟨_, rfl⟩ | hold
          · exact he
          · exact hbk x hold
        · intro x hx
          cases hfbv : fb with
          | some f =>
            rw [hfbv] at hx
            have hxf : some f = some x := hx
            rw [← Option.some.inj hxf]
            exact hfb f hfbv
          | none =>
            rw [hfbv] at hx
            have hxf : some (sanitizeToken t) = some x := hx
            rw [← Option.some.inj hxf]
            exact he

theorem pickVariant_eq_base :
    ∀ (ts : List String) (bk fb : Option String),
      (∃ t ∈ ts, sanitizeToken t = "BASE") → pickVariant ts bk fb = "BASE" := by
  intro ts
  induction ts with
  | nil =>
    intro bk fb h
    simp at h
  | cons t ts ih =>
    intro bk fb h
    rcases h with ⟨u, hu, hsan⟩
    rcases List.mem_cons.mp hu with rfl | hu
    · exact pickVariant_cons_base hsan
    · by_cases he : sanitizeToken t = ""
      · rw [pickVariant_cons_skip he]
        exact ih bk fb ⟨u, hu, hsan⟩
      · by_cases hb : sanitizeToken t = "BASE"
        · exact pickVariant_cons_base hb
        · rw [pickVariant_cons_step he hb]
          exact ih _ _ ⟨u, hu, hsan⟩

theorem pickVariant_mem :
    ∀ (ts : List String) (bk fb : Option String),
      (∀ b, bk = some b → b ∈ variantTokens) →
      ((∃ t ∈ ts, sanitizeToken t ∈ variantTokens) ∨ ∃ b, bk = some b) →
      pickVariant ts bk fb ∈ variantTokens ∨ pickVariant ts bk fb = "BASE" := by
  intro ts
  induction ts with
  | nil =>
    intro bk fb hbk h
    rcases h with h | ⟨b, hb⟩
    · simp at h
    · subst hb
      exact Or.inl (hbk b rfl)
  | cons t ts ih =>
    intro bk fb hbk h
    by_cases he : sanitizeToken t = ""
    · rw [pickVariant_cons_skip he]
      refine ih bk fb hbk ?_
      rcases h with ⟨u, hu, hmem⟩ | hb
      · rcases List.mem_cons.mp hu with rfl | hu
        · rw [he] at hmem
          exact absurd hmem (by decide)
        · exact Or.inl ⟨u, hu, hmem⟩
      · exact Or.inr hb
    · by_cases hbase : sanitizeToken t = "BASE"
      · rw [pickVariant_cons_base hbase]
        exact Or.inr rfl
      · rw [pickVariant_cons_step he hbase]
        refine ih _ _ (pickBetter_mem hbk) ?_
        rcases h with ⟨u, hu, hmem⟩ | ⟨b, hb⟩
        · rcases List.mem_cons.mp hu with rfl | hu
          · refine Or.inr ?_
            have hc : variantTokens.contains (sanitizeToken u) = true := by simpa using hmem
            cases hbkv : bk with
            | none => exact ⟨_, pickBetter_none hc⟩
            | some b =>
              by_cases hbet : (sanitizeToken u).length > b.length ∨
                  ((sanitizeToken u).length = b.length ∧ strLT (sanitizeToken u) b = true)
              · exact ⟨_, pickBetter_some_better hc hbet⟩
              · exact ⟨_, pickBetter_some_keep hc hbet⟩
          · exact Or.inl ⟨u, hu, hmem⟩
        · subst hb
          refine Or.inr ?_
          by_cases hc : variantTokens.contains (sanitizeToken t) = true
          · by_cases hbet : (sanitizeToken t).length > b.length ∨
                ((sanitizeToken t).length = b.length ∧ strLT (sanitizeToken t) b = true)
            · exact ⟨_, pickBetter_some_better hc hbet⟩
            · exact ⟨_, pickBetter_some_keep hc hbet⟩
          · exact ⟨b, pickBetter_not_contains hc⟩

theorem pickVariant_fallback :
    ∀ (ts : List String) (f : String),
      (∀ t ∈ ts, sanitizeToken t ∉ variantTokens) →
      (∀ t ∈ ts, sanitizeToken t ≠ "BASE") →
      pickVariant ts none (some f) = f := by
  intro ts
  induction ts with
  | nil => intro f _ _; rfl
  | cons t ts ih =>
    intro f hvoc hbase
    by_cases he : sanitizeToken t = ""
    · rw [pickVariant_cons_skip he]
      exact ih f (fun u hu => hvoc u (List.mem_cons_of_mem t hu))
        (fun u hu => hbase u (List.mem_cons_of_mem t hu))
    · rw [pickVariant_cons_step he (hbase t (List.mem_cons_self t ts))]
      have hbet : pickBetter none (sanitizeToken t) = none := by
        unfold pickBetter
        rw [if_neg (by simpa using hvoc t (List.mem_cons_self t ts))]
      rw [hbet]
      exact ih f (fun u hu => hvoc u (List.mem_cons_of_mem t hu))
        (fun u hu => hbase u (List.mem_cons_of_mem t hu))

theorem dominance_trans {r b m : String}
    (h1 : b.length < r.length ∨ (b.length = r.length ∧ strLE r b = true))
    (h2 : m.length < b.length ∨ (m.length = b.length ∧ strLE b m = true)) :
    m.length < r.length ∨ (m.length = r.length ∧ strLE r m = true) := by
  rcases h1 with h1 | ⟨h1, h1le⟩
  · rcases h2 with h2 | ⟨h2, _⟩
    · exact Or.inl (by omega)
    · exact Or.inl (by omega)
  · rcases h2 with h2 | ⟨h2, h2le⟩
    · exact Or.inl (by omega)
    · exact Or.inr ⟨by omega, strLE_trans h1le h2le⟩

theorem pickVariant_best :
    ∀ (ts : List String) (bk fb : Option String),
      (∀ t ∈ ts, sanitizeToken t ≠ "BASE") →
      (∀ b, bk = some b → b ∈ variantTokens) →
      ∀ m, ((∃ t ∈ ts, sanitizeToken t = m) ∨ bk = some m) → m ∈ variantTokens →
        pickVariant ts bk fb ∈ variantTokens ∧
          (m.length < (pickVariant ts bk fb).length ∨
           (m.length = (pickVariant ts bk fb).length ∧
             strLE (pickVariant ts bk fb) m = true)) := by
  intro ts
  induction ts with
  | nil =>
    intro bk fb _ hbk m hm hmv
    rcases hm with hm | hm
    · simp at hm
    · subst hm
      show m ∈ variantTokens ∧
        (m.length < m.length ∨ (m.length = m.length ∧ strLE m m = true))
      exact ⟨hbk m rfl, Or.inr ⟨rfl, strLE_refl m⟩⟩
  | cons t ts ih =>
    intro bk fb hbase hbk m hm hmv
    have hbaset := hbase t (List.mem_cons_self t ts)
    have hbasets : ∀ u ∈ ts, sanitizeToken u ≠ "BASE" :=
      fun u hu => hbase u (List.mem_cons_of_mem t hu)
    by_cases he : sanitizeToken t = ""
    · rw [pickVariant_cons_skip he]
      refine ih bk fb hbasets hbk m ?_ hmv
      rcases hm with ⟨u, hu, hsan⟩ | hm
      · rcases List.mem_cons.mp hu with rfl | hu
        · rw [he] at hsan
          subst hsan
          exact absurd hmv (by decide)
        · exact Or.inl ⟨u, hu, hsan⟩
      · exact Or.inr hm
    · rw [pickVariant_cons_step he hbaset]
      rcases hm with ⟨u, hu, hsan⟩ | hm
      · rcases List.mem_cons.mp hu with rfl | hu
        · subst hsan
          have hc : variantTokens.contains (sanitizeToken u) = true := by simpa using hmv
          cases hbkv : bk with
          | none =>
            rw [pickBetter_none hc]
            exact ih (some (sanitizeToken u)) (pickFallback fb (sanitizeToken u)) hbasets
              (by intro x hx; rw [← Option.some.inj hx]; exact hmv)
              (sanitizeToken u) (Or.inr rfl) hmv
          | some b =>
            by_cases hbet : (sanitizeToken u).length > b.length ∨
                ((sanitizeToken u).length = b.length ∧ strLT (sanitizeToken u) b = true)
            · rw [pickBetter_some_better hc hbet]
              exact ih (some (sanitizeToken u)) (pickFallback fb (sanitizeToken u)) hbasets
                (by intro x hx; rw [← Option.some.inj hx]; exact hmv)
                (sanitizeToken u) (Or.inr rfl) hmv
            · rw [pickBetter_some_keep hc hbet]
              have hbv : b ∈ variantTokens := hbk b hbkv
              have hrb := ih (some b) (pickFallback fb (sanitizeToken u)) hbasets
                (by intro x hx; rw [← Option.some.inj hx]; exact hbv) b (Or.inr rfl) hbv
              refine ⟨hrb.1, ?_⟩
              refine dominance_trans hrb.2 ?_
              push_neg at hbet
              rcases Nat.lt_or_ge (sanitizeToken u).length b.length with hlt | hge
              · exact Or.inl hlt
              · have hel : (sanitizeToken u).length = b.length := by omega
                refine Or.inr ⟨hel, ?_⟩
                rcases strLE_total b (sanitizeToken u) with hle | hle
                · exact hle
                · have hne := hbet.2 hel
                  simp only [strLE, Bool.or_eq_true, beq_iff_eq] at hle
                  rcases hle with hlt2 | hleq
                  · exact absurd hlt2 (by simpa using hne)
                  · rw [hleq]
                    exact strLE_refl _
        · exact ih _ _ hbasets (pickBetter_mem hbk) m (Or.inl ⟨u, hu, hsan⟩) hmv
      · subst hm
        by_cases hc : variantTokens.contains (sanitizeToken t) = true
        · by_cases hbet : (sanitizeToken t).length > m.length ∨
              ((sanitizeToken t).length = m.length ∧ strLT (sanitizeToken t) m = true)
          · rw [pickBetter_some_better hc hbet]
            have htv : sanitizeToken t ∈ variantTokens := by simpa using hc
            have hrt := ih (some (sanitizeToken t)) (pickFallback fb (sanitizeToken t)) hbasets
              (by intro x hx; rw [← Option.some.inj hx]; exact htv)
              (sanitizeToken t) (Or.inr rfl) htv
            refine ⟨hrt.1, ?_⟩
            refine dominance_trans hrt.2 ?_
            rcases hbet with hbet | ⟨hbet, hlt⟩
            · exact Or.inl hbet
            · exact Or.inr ⟨hbet.symm, strLE_of_strLT hlt⟩
          · rw [pickBetter_some_keep hc hbet]
            exact ih (some m) (pickFallback fb (sanitizeToken t)) hbasets
              (by intro x hx; rw [← Option.some.inj hx]; exact hmv) m (Or.inr rfl) hmv
        · rw [pickBetter_not_contains hc]
          exact ih (some m) (pickFallback fb (sanitizeToken t)) hbasets
            (by intro x hx; rw [← Option.some.inj hx]; exact hmv) m (Or.inr rfl) hmv

theorem pickVariant_source :
    ∀ (ts : List String) (bk fb : Option String),
      (∃ t ∈ ts, pickVariant ts bk fb = sanitizeToken t) ∨
      (∃ b, bk = some b ∧ pickVariant ts bk fb = b) ∨
      (∃ f, fb = some f ∧ pickVariant ts bk fb = f) ∨
      ((∀ t ∈ ts, sanitizeToken t = "") ∧ bk = none ∧ fb = none ∧
        pickVariant ts bk fb = "BASE") := by
  intro ts
  induction ts with
  | nil =>
    intro bk fb
    cases bk with
    | some b => exact Or.inr (Or.inl ⟨b, rfl, rfl⟩)
    | none =>
      cases fb with
      | some f => exact Or.inr (Or.inr (Or.inl ⟨f, rfl, rfl⟩))
      | none =>
        refine Or.inr (Or.inr (Or.inr ⟨?_, rfl, rfl, rfl⟩))
        intro t ht
        exact absurd ht (List.not_mem_nil t)
  | cons t ts ih =>
    intro bk fb
    by_cases he : sanitizeToken t = ""
    · rcases ih bk fb with ⟨u, hu, hru⟩ | ⟨b, hb, hrb⟩ | ⟨f, hf, hrf⟩ | ⟨hall, hbk, hfb, hrb⟩
      · exact Or.inl ⟨u, List.mem_cons_of_mem t hu,
          by rw [pickVariant_cons_skip he]; exact hru⟩
      · exact Or.inr (Or.inl ⟨b, hb, by rw [pickVariant_cons_skip he]; exact hrb⟩)
      · exact Or.inr (Or.inr (Or.inl ⟨f, hf, by rw [pickVariant_cons_skip he]; exact hrf⟩))
      · refine Or.inr (Or.inr (Or.inr ⟨?_, hbk, hfb,
          by rw [pickVariant_cons_skip he]; exact hrb⟩))
        intro u hu
        rcases List.mem_cons.mp hu with rfl | hu
        · exact he
        · exact hall u hu
    · by_cases hbase : sanitizeToken t = "BASE"
      · refine Or.inl ⟨t, List.mem_cons_self t ts, ?_⟩
        rw [pickVariant_cons_base hbase, hbase]
      · rcases ih (pickBetter bk (sanitizeToken t)) (pickFallback fb (sanitizeToken t)) with
          ⟨u, hu, hru⟩ | ⟨b2, hb2, hrb⟩ | ⟨f, hf, hrf⟩ | ⟨_, _, hfb2, _⟩
        · exact Or.inl ⟨u, List.mem_cons_of_mem t hu,
            by rw [pickVariant_cons_step he hbase]; exact hru⟩
        · rcases pickBetter_some_cases hb2 with ⟨_, rfl⟩ | hbk2
          · exact Or.inl ⟨t, List.mem_cons_self t ts,
              by rw [pickVariant_cons_step he hbase]; exact hrb⟩
          · exact Or.inr (Or.inl ⟨b2, hbk2,
              by rw [pickVariant_cons_step he hbase]; exact hrb⟩)
        · cases hfbv : fb with
          | some f0 =>
            rw [hfbv] at hf hrf
            have hff : f0 = f := Option.some.inj hf
            refine Or.inr (Or.inr (Or.inl ⟨f0, rfl, ?_⟩))
            rw [pickVariant_cons_step he hbase, hrf]
            exact hff.symm
          | none =>
            rw [hfbv] at hf hrf
            have hff : sanitizeToken t = f := Option.some.inj hf
            refine Or.inl ⟨t, List.mem_cons_self t ts, ?_⟩
            rw [pickVariant_cons_step he hbase, hrf]
            exact hff.symm
        · exact absurd hfb2 (by cases fb <;> simp [pickFallback])

theorem sanitizeToken_of_token_ne_empty {s t : String} (h : t ∈ tokens s) :
    sanitizeToken t ≠ "" := by
  have hprops := mem_tokens_props h
  refine sanitizeToken_ne_empty (tokens_ne_nil ?_)
  rcases List.exists_cons_of_ne_nil hprops.1 with ⟨c, cs, hcs⟩
  exact ⟨c, by rw [hcs]; simp, hprops.2 c (by rw [hcs]; simp)⟩

/-- C8: `extractVariantCode` is total and never returns the empty string;
an explicit `BASE` token short-circuits to `BASE`; with no tokens at all
the result is `BASE`; when some token is in the curated vocabulary the
result is a vocabulary member or `BASE`; with no vocabulary and no `BASE`
token the result is the first sanitized token; (absent a `BASE` token)
the result dominates every vocabulary match under the tie-break "longer
wins, then lexicographically smaller wins"; and (absent a `BASE` token,
with some vocabulary match present) the result is itself the sanitized
form of one of the input's vocabulary-matching tokens — together with
the dominance clause, it is exactly the best vocabulary match of the
input. -/
theorem extractVariantCode_spec (s : String) :
    extractVariantCode s ≠ "" ∧
    (tokens s = [] → extractVariantCode s = "BASE") ∧
    ((∃ t ∈ tokens s, sanitizeToken t = "BASE") → extractVariantCode s = "BASE") ∧
    ((∃ t ∈ tokens s, sanitizeToken t ∈ variantTokens) →
      extractVariantCode s ∈ variantTokens ∨ extractVariantCode s = "BASE") ∧
    (∀ t rest, tokens s = t :: rest →
      (∀ u ∈ tokens s, sanitizeToken u ∉ variantTokens) →
      (∀ u ∈ tokens s, sanitizeToken u ≠ "BASE") →
      extractVariantCode s = sanitizeToken t) ∧
    ((∀ u ∈ tokens s, sanitizeToken u ≠ "BASE") →
      ∀ m ∈ tokens s, sanitizeToken m ∈ variantTokens →
        extractVariantCode s ∈ variantTokens ∧
          ((sanitizeToken m).length < (extractVariantCode s).length ∨
           ((sanitizeToken m).length = (extractVariantCode s).length ∧
             strLE (extractVariantCode s) (sanitizeToken m) = true))) ∧
    ((∀ u ∈ tokens s, sanitizeToken u ≠ "BASE") →
      (∃ t ∈ tokens s, sanitizeToken t ∈ variantTokens) →
      ∃ t ∈ tokens s, sanitizeToken t ∈ variantTokens ∧
        extractVariantCode s = sanitizeToken t) := by
  by_cases hs : s = ""
  · subst hs
    have h0 : tokens "" = [] := rfl
    refine ⟨by decide, fun _ => rfl, ?_, ?_, ?_, ?_, ?_⟩
    · intro h
      rcases h with ⟨t, ht, _⟩
      rw [h0] at ht
      exact absurd ht (List.not_mem_nil t)
    · intro h
      rcases h with ⟨t, ht, _⟩
      rw [h0] at ht
      exact absurd ht (List.not_mem_nil t)
    · intro t rest hcons
      rw [h0] at hcons
      cases hcons
    · intro _ m hm
      rw [h0] at hm
      exact absurd hm (List.not_mem_nil m)
    · intro _ hmatch
      rcases hmatch with ⟨t, ht, _⟩
      rw [h0] at ht
      exact absurd ht (List.not_mem_nil t)
  · have hev : extractVariantCode s = pickVariant (tokens s) none none := by
      unfold extractVariantCode
      rw [if_neg hs]
    rw [hev]
    refine ⟨?_, ?_, ?_, ?_, ?_, ?_, ?_⟩
    · exact pickVariant_ne_empty (tokens s) none none (by intro x hx; cases hx)
        (by intro x hx; cases hx)
    · intro h
      rw [h]
      rfl
    · exact pickVariant_eq_base (tokens s) none none
    · intro h
      exact pickVariant_mem (tokens s) none none (by intro b hb; cases hb) (Or.inl h)
    · intro t rest hcons hnv hnb
      rw [hcons]
      have htm : t ∈ tokens s := by rw [hcons]; simp
      have hne := sanitizeToken_of_token_ne_empty htm
      rw [pickVariant_cons_step hne (hnb t htm)]
      rw [pickBetter_not_contains (by simpa using hnv t htm)]
      have hfb : pickFallback (none : Option String) (sanitizeToken t) =
          some (sanitizeToken t) := rfl
      rw [hfb]
      exact pickVariant_fallback rest (sanitizeToken t)
        (fun u hu => hnv u (by rw [hcons]; exact List.mem_cons_of_mem t hu))
        (fun u hu => hnb u (by rw [hcons]; exact List.mem_cons_of_mem t hu))
    · intro hnb m hm hmv
      exact pickVariant_best (tokens s) none none hnb (by intro b hb; cases hb)
        (sanitizeToken m) (Or.inl ⟨m, hm, rfl⟩) hmv
    · intro hnb hmatch
      rcases pickVariant_source (tokens s) none none with
        ⟨t, ht, hrt⟩ | ⟨b, hb, _⟩ | ⟨f, hf, _⟩ | ⟨hall, _, _, _⟩
      · refine ⟨t, ht, ?_, hrt⟩
        rcases pickVariant_mem (tokens s) none none (by intro b hb; cases hb)
            (Or.inl hmatch) with hv | hbase
        · rw [hrt] at hv
          exact hv
        · rw [hbase] at hrt
          exact absurd hrt.symm (hnb t ht)
      · cases hb
      · cases hf
      · rcases hmatch with ⟨t0, ht0, hmem⟩
        rw [hall t0 ht0] at hmem
        exact absurd hmem (by decide)

/-- C8 witness: at `"Zeus CL ES"` the tie between the equal-length
vocabulary matches `CL` and `ES` is broken toward the lexicographically
smaller one, exercising the dominance clause, and the result is itself
one of the input's matched tokens, exercising the attainment clause. -/
theorem extractVariantCode_spec_witness :
    (extractVariantCode "Zeus CL ES" ∈ variantTokens ∧
      ((sanitizeToken "ES").length < (extractVariantCode "Zeus CL ES").length ∨
       ((sanitizeToken "ES").length = (extractVariantCode "Zeus CL ES").length ∧
         strLE (extractVariantCode "Zeus CL ES") (sanitizeToken "ES") = true))) ∧
    ∃ t ∈ tokens "Zeus CL ES", sanitizeToken t ∈ variantTokens ∧
      extractVariantCode "Zeus CL ES" = sanitizeToken t :=
  ⟨(extractVariantCode_spec "Zeus CL ES").2.2.2.2.2.1 (by decide) "ES" (by decide) (by decide),
   (extractVariantCode_spec "Zeus CL ES").2.2.2.2.2.2 (by decide) (by decide)⟩

/-! ## The stable sort and the keeper comparator -/

theorem mem_orderedInsert {le : α → α → Bool} {a x : α} {l : List α} :
    x ∈ orderedInsert le a l ↔ x = a ∨ x ∈ l := by
  induction l with
  | nil => simp [orderedInsert]
  | cons b bs ih =>
    by_cases h : le a b
    · simp [orderedInsert, h]
    · simp only [orderedInsert, if_neg h, List.mem_cons, ih]
      tauto

theorem orderedInsert_perm (le : α → α → Bool) (a : α) (l : List α) :
    List.Perm (orderedInsert le a l) (a :: l) := by
  induction l with
  | nil => simp [orderedInsert]
  | cons b bs ih =>
    by_cases h : le a b
    · simp [orderedInsert, h]
    · simp only [orderedInsert, if_neg h]
      exact (ih.cons b).trans (List.Perm.swap a b bs)

theorem insertionSortB_perm (le : α → α → Bool) (l : List α) :
    List.Perm (insertionSortB le l) l := by
  induction l with
  | nil => simp [insertionSortB]
  | cons a as ih =>
    simp only [insertionSortB]
    exact (orderedInsert_perm le a _).trans (ih.cons a)

theorem pairwise_orderedInsert {le : α → α → Bool}
    (htrans : ∀ x y z, le x y = true → le y z = true → le x z = true)
    (htot : ∀ x y, le x y = true ∨ le y x = true)
    {a : α} {l : List α} (h : l.Pairwise (fun x y => le x y = true)) :
    (orderedInsert le a l).Pairwise (fun x y => le x y = true) := by
  induction l with
  | nil => simp [orderedInsert]
  | cons b bs ih =>
    rcases List.pairwise_cons.mp h with ⟨hb, hbs⟩
    by_cases hab : le a b
    · simp only [orderedInsert, if_pos hab]
      refine List.pairwise_cons.mpr ⟨?_, h⟩
      intro y hy
      rcases List.mem_cons.mp hy with rfl | hy
      · exact hab
      · exact htrans a b y hab (hb y hy)
    · simp only [orderedInsert, if_neg hab]
      refine List.pairwise_cons.mpr ⟨?_, ih hbs⟩
      intro y hy
      rcases mem_orderedInsert.mp hy with hye | hy
      · rw [hye]
        rcases htot a b with hba | hba
        · exact absurd hba hab
        · exact hba
      · exact hb y hy

theorem pairwise_insertionSortB {le : α → α → Bool}
    (htrans : ∀ x y z, le x y = true → le y z = true → le x z = true)
    (htot : ∀ x y, le x y = true ∨ le y x = true) (l : List α) :
    (insertionSortB le l).Pairwise (fun x y => le x y = true) := by
  induction l with
  | nil => simp [insertionSortB]
  | cons a as ih =>
    exact pairwise_orderedInsert htrans htot ih

theorem insertionSortB_head_min {le : α → α → Bool}
    (htrans : ∀ x y z, le x y = true → le y z = true → le x z = true)
    (htot : ∀ x y, le x y = true ∨ le y x = true)
    {l : List α} {h : α} {t : List α} (hsort : insertionSortB le l = h :: t) :
    h ∈ l ∧ ∀ x ∈ l, x = h ∨ le h x = true := by
  have hperm := insertionSortB_perm le l
  rw [hsort] at hperm
  constructor
  · exact hperm.mem_iff.mp (List.mem_cons_self h t)
  · intro x hx
    have hx2 : x ∈ h :: t := hperm.mem_iff.mpr hx
    rcases List.mem_cons.mp hx2 with rfl | hx2
    · exact Or.inl rfl
    · have hpw := pairwise_insertionSortB htrans htot l
      rw [hsort] at hpw
      exact Or.inr ((List.pairwise_cons.mp hpw).1 x hx2)

theorem sortClass_lt_or (cid : String) (a b : Candidate) :
    sortClass cid a < sortClass cid b ∨ sortClass cid a = sortClass cid b ∨
      sortClass cid b < sortClass cid a :=
  Nat.lt_trichotomy _ _

theorem keeperLEb_refl (cid : String) (a : Candidate) : keeperLEb cid a a = true := by
  simp [keeperLEb, strLE_refl]

theorem keeperLEb_total (cid : String) (a b : Candidate) :
    keeperLEb cid a b = true ∨ keeperLEb cid b a = true := by
  unfold keeperLEb
  by_cases h : sortClass cid a = sortClass cid b
  · rw [if_pos h, if_pos h.symm]
    exact strLE_total _ _
  · rw [if_neg h, if_neg (fun hc => h hc.symm)]
    have := Nat.lt_trichotomy (sortClass cid a) (sortClass cid b)
    rcases this with hlt | heq | hgt
    · exact Or.inl (by simpa using hlt)
    · exact absurd heq h
    · exact Or.inr (by simpa using hgt)

theorem keeperLEb_trans (cid : String) (a b c : Candidate)
    (h1 : keeperLEb cid a b = true) (h2 : keeperLEb cid b c = true) :
    keeperLEb cid a c = true := by
  unfold keeperLEb at h1 h2 ⊢
  by_cases hab : sortClass cid a = sortClass cid b
  · rw [if_pos hab] at h1
    by_cases hbc : sortClass cid b = sortClass cid c
    · rw [if_pos hbc] at h2
      rw [if_pos (hab.trans hbc)]
      exact strLE_trans h1 h2
    · rw [if_neg hbc] at h2
      have hlt : sortClass cid b < sortClass cid c := by simpa using h2
      rw [if_neg (by omega)]
      simpa using (by omega : sortClass cid a < sortClass cid c)
  · rw [if_neg hab] at h1
    have hlt1 : sortClass cid a < sortClass cid b := by simpa using h1
    by_cases hbc : sortClass cid b = sortClass cid c
    · rw [if_neg (by omega)]
      simpa using (by omega : sortClass cid a < sortClass cid c)
    · rw [if_neg hbc] at h2
      have hlt2 : sortClass cid b < sortClass cid c := by simpa using h2
      rw [if_neg (by omega)]
      simpa using (by omega : sortClass cid a < sortClass cid c)

theorem keeperLEb_antisymm (cid : String) (a b : Candidate)
    (h1 : keeperLEb cid a b = true) (h2 : keeperLEb cid b a = true) :
    a.external_id = b.external_id := by
  unfold keeperLEb at h1 h2
  by_cases hab : sortClass cid a = sortClass cid b
  · rw [if_pos hab] at h1
    rw [if_pos hab.symm] at h2
    exact strLE_antisymm h1 h2
  · rw [if_neg hab] at h1
    rw [if_neg (fun hc => hab hc.symm)] at h2
    have hlt1 : sortClass cid a < sortClass cid b := by simpa using h1
    have hlt2 : sortClass cid b < sortClass cid a := by simpa using h2
    omega

theorem pairwise_ext_eq {l : List Candidate}
    (h : l.Pairwise (fun a b => a.external_id ≠ b.external_id)) :
    ∀ a ∈ l, ∀ b ∈ l, a.external_id = b.external_id → a = b := by
  induction l with
  | nil => intro a ha; exact absurd ha (List.not_mem_nil a)
  | cons x xs ih =>
    rcases List.pairwise_cons.mp h with ⟨hx, hxs⟩
    intro a ha b hb he
    rcases List.mem_cons.mp ha with ha | ha
    · rcases List.mem_cons.mp hb with hb | hb
      · rw [ha, hb]
      · rw [ha] at he
        exact absurd he (hx b hb)
    · rcases List.mem_cons.mp hb with hb | hb
      · rw [hb] at he
        exact absurd he.symm (hx a ha)
      · exact ih hxs a ha b hb he

/-- Heads of the keeper sort agree across permutations of a candidate
list whose external ids are pairwise distinct. -/
theorem keeper_head_unique {cid : String} {l1 l2 : List Candidate}
    (hperm : List.Perm l1 l2)
    (hdist : l1.Pairwise (fun a b => a.external_id ≠ b.external_id)) :
    (insertionSortB (keeperLEb cid) l1).head? =
      (insertionSortB (keeperLEb cid) l2).head? := by
  cases hs1 : insertionSortB (keeperLEb cid) l1 with
  | nil =>
    cases hs2 : insertionSortB (keeperLEb cid) l2 with
    | nil => rfl
    | cons h2 t2 =>
      have he1 : l1 = [] := by
        have := insertionSortB_perm (keeperLEb cid) l1
        rw [hs1] at this
        exact (List.Perm.nil_eq this).symm
      have : l2 = [] := by
        rw [he1] at hperm
        exact (List.Perm.nil_eq hperm).symm
      rw [this] at hs2
      cases hs2
  | cons h1 t1 =>
    cases hs2 : insertionSortB (keeperLEb cid) l2 with
    | nil =>
      have he2 : l2 = [] := by
        have := insertionSortB_perm (keeperLEb cid) l2
        rw [hs2] at this
        exact (List.Perm.nil_eq this).symm
      rw [he2] at hperm
      have : l1 = [] := List.Perm.nil_eq hperm.symm |>.symm
      rw [this] at hs1
      cases hs1
    | cons h2 t2 =>
      have hmin1 := insertionSortB_head_min (keeperLEb_trans cid) (keeperLEb_total cid) hs1
      have hmin2 := insertionSortB_head_min (keeperLEb_trans cid) (keeperLEb_total cid) hs2
      have hm2in1 : h2 ∈ l1 := hperm.mem_iff.mpr hmin2.1
      have hm1in1 : h1 ∈ l1 := hmin1.1
      have hle12 : h2 = h1 ∨ keeperLEb cid h1 h2 = true := hmin1.2 h2 hm2in1
      have hle21 : h1 = h2 ∨ keeperLEb cid h2 h1 = true := by
        refine hmin2.2 h1 ?_
        exact hperm.mem_iff.mp hm1in1
      simp only [List.head?]
      rcases hle12 with heq | hle12
      · rw [heq]
      · rcases hle21 with heq | hle21
        · rw [heq]
        · have hext := keeperLEb_antisymm cid h1 h2 hle12 hle21
          rw [pairwise_ext_eq hdist h1 hm1in1 h2 hm2in1 hext]

/-! ## Claim C7: the keeper comparator and the Aurora example -/

theorem keeperLEb_iff {cid : String} {a b : Candidate} :
    keeperLEb cid a b = true ↔
      (sortClass cid a < sortClass cid b ∨
       (sortClass cid a = sortClass cid b ∧ strLE a.external_id b.external_id = true)) := by
  unfold keeperLEb
  by_cases h : sortClass cid a = sortClass cid b
  · rw [if_pos h]
    constructor
    · intro hle
      exact Or.inr ⟨h, hle⟩
    · intro hor
      rcases hor with hlt | ⟨_, hle⟩
      · omega
      · exact hle
  · rw [if_neg h]
    constructor
    · intro hlt
      exact Or.inl (by simpa using hlt)
    · intro hor
      rcases hor with hlt | ⟨heq, _⟩
      · simpa using hlt
      · exact absurd heq h

/-- C7: within every group the keeper — the head of the sorted candidate
list — is a group member that is least in the order "exact external-id
match with the canonical id first, then non-edition-only before
edition-only, ties broken lexicographically on the external id"; and on
the Aurora example the exact-match record `B` is the keeper while the
remap table sends both `A` and `B` to `RSI_AURORA_MR`. -/
theorem keeper_comparator_spec :
    (∀ (cid : String) (cands : List Candidate) (keeper : Candidate) (rest : List Candidate),
      insertionSortB (keeperLEb cid) cands = keeper :: rest →
        keeper ∈ cands ∧ ∀ c ∈ cands, c = keeper ∨
          (sortClass cid keeper < sortClass cid c ∨
           (sortClass cid keeper = sortClass cid c ∧
             strLE keeper.external_id c.external_id = true))) ∧
    (keeperOf
        (runMigration [⟨"S", "RSI_AURORA", none, none⟩]
          [⟨"A", "A", some "S", some "Aurora MR"⟩,
           ⟨"B", "RSI_AURORA_MR", some "S", none⟩]).1 "RSI_AURORA_MR" =
      some ⟨"B", "RSI_AURORA_MR", none, none, none, false⟩ ∧
     mapGet
        (runMigration [⟨"S", "RSI_AURORA", none, none⟩]
          [⟨"A", "A", some "S", some "Aurora MR"⟩,
           ⟨"B", "RSI_AURORA_MR", some "S", none⟩]).2.migrationMap "A" =
      some "RSI_AURORA_MR" ∧
     mapGet
        (runMigration [⟨"S", "RSI_AURORA", none, none⟩]
          [⟨"A", "A", some "S", some "Aurora MR"⟩,
           ⟨"B", "RSI_AURORA_MR", some "S", none⟩]).2.migrationMap "B" =
      some "RSI_AURORA_MR") := by
  constructor
  · intro cid cands keeper rest hsort
    have hmin := insertionSortB_head_min (keeperLEb_trans cid) (keeperLEb_total cid) hsort
    refine ⟨hmin.1, ?_⟩
    intro c hc
    rcases hmin.2 c hc with heq | hle
    · exact Or.inl heq
    · exact Or.inr (keeperLEb_iff.mp hle)
  · exact ⟨by decide, by decide, by decide⟩

/-- C7 witness: the comparator characterization applied to the Aurora
group's concrete candidate list. -/
theorem keeper_comparator_spec_witness :
    (⟨"B", "RSI_AURORA_MR", none, none, none, false⟩ : Candidate) ∈
        [(⟨"A", "A", some "Aurora MR", none, none, false⟩ : Candidate),
         ⟨"B", "RSI_AURORA_MR", none, none, none, false⟩] ∧
      ∀ c ∈ [(⟨"A", "A", some "Aurora MR", none, none, false⟩ : Candidate),
         ⟨"B", "RSI_AURORA_MR", none, none, none, false⟩],
        c = ⟨"B", "RSI_AURORA_MR", none, none, none, false⟩ ∨
          (sortClass "RSI_AURORA_MR" ⟨"B", "RSI_AURORA_MR", none, none, none, false⟩ <
              sortClass "RSI_AURORA_MR" c ∨
           (sortClass "RSI_AURORA_MR" ⟨"B", "RSI_AURORA_MR", none, none, none, false⟩ =
              sortClass "RSI_AURORA_MR" c ∧
             strLE "RSI_AURORA_MR" c.external_id = true)) :=
  keeper_comparator_spec.1 "RSI_AURORA_MR"
    [⟨"A", "A", some "Aurora MR", none, none, false⟩,
     ⟨"B", "RSI_AURORA_MR", none, none, none, false⟩]
    ⟨"B", "RSI_AURORA_MR", none, none, none, false⟩
    [⟨"A", "A", some "Aurora MR", none, none, false⟩] (by decide)

/-! ## State lemmas for the resolution pass -/

theorem mapGet_mapSet {α : Type} (m : List (String × α)) (k : String) (v : α) (k2 : String) :
    mapGet (mapSet m k v) k2 = if k2 = k then some v else mapGet m k2 := by
  induction m with
  | nil =>
    simp only [mapSet, mapGet]
    by_cases h : k = k2
    · rw [if_pos h, if_pos h.symm]
    · rw [if_neg h, if_neg (fun hc => h hc.symm)]
  | cons e rest ih =>
    simp only [mapSet]
    by_cases he : e.1 = k
    · rw [if_pos he]
      simp only [mapGet]
      by_cases h : k = k2
      · rw [if_pos h, if_pos h.symm]
      · have hek2 : ¬ e.1 = k2 := by rw [he]; exact h
        rw [if_neg h, if_neg (fun hc => h hc.symm), if_neg hek2]
    · rw [if_neg he]
      simp only [mapGet]
      by_cases hek : e.1 = k2
      · have hne : ¬ k2 = k := by
          intro hc
          rw [hc] at hek
          exact he hek
        rw [if_pos hek, if_neg hne, if_pos hek]
      · rw [if_neg hek, if_neg hek, ih]

theorem processDuplicate_migrationMap (cid : String) (st : RunState) (dup : Candidate) :
    (processDuplicate cid st dup).migrationMap = mapSet st.migrationMap dup.id cid := by
  unfold processDuplicate
  by_cases h : (jsTruthy dup.editionCode).isSome ∨ (jsTruthy dup.livery).isSome
  · rw [if_pos h]
  · rw [if_neg h]

theorem processDuplicate_variantsToDelete (cid : String) (st : RunState) (dup : Candidate) :
    (processDuplicate cid st dup).variantsToDelete = st.variantsToDelete ++ [dup.id] := by
  unfold processDuplicate
  by_cases h : (jsTruthy dup.editionCode).isSome ∨ (jsTruthy dup.livery).isSome
  · rw [if_pos h]
  · rw [if_neg h]

theorem processDuplicate_keeperUpdates (cid : String) (st : RunState) (dup : Candidate) :
    (processDuplicate cid st dup).keeperUpdates = st.keeperUpdates := by
  unfold processDuplicate
  by_cases h : (jsTruthy dup.editionCode).isSome ∨ (jsTruthy dup.livery).isSome
  · rw [if_pos h]
  · rw [if_neg h]

theorem foldDup_migrationMap (cid : String) :
    ∀ (dups : List Candidate) (st : RunState) (k : String),
      mapGet (dups.foldl (processDuplicate cid) st).migrationMap k =
        if dups.any (fun c => c.id == k) then some cid
        else mapGet st.migrationMap k := by
  intro dups
  induction dups with
  | nil => intro st k; simp
  | cons d ds ih =>
    intro st k
    simp only [List.foldl_cons]
    rw [ih]
    by_cases hds : ds.any (fun c => c.id == k) = true
    · rw [if_pos hds]
      have hall : (List.any (d :: ds) fun c => c.id == k) = true := by
        simp only [List.any_cons, Bool.or_eq_true]
        exact Or.inr hds
      rw [if_pos hall]
    · rw [if_neg hds]
      rw [processDuplicate_migrationMap, mapGet_mapSet]
      by_cases hd : d.id = k
      · rw [if_pos hd.symm]
        have hall : (List.any (d :: ds) fun c => c.id == k) = true := by
          simp only [List.any_cons, Bool.or_eq_true]
          exact Or.inl (by simpa using hd)
        rw [if_pos hall]
      · rw [if_neg (fun hc : k = d.id => hd hc.symm)]
        have hall : ¬ (List.any (d :: ds) fun c => c.id == k) = true := by
          simp only [List.any_cons, Bool.or_eq_true]
          intro hc
          rcases hc with h1 | h1
          · exact hd (by simpa using h1)
          · exact hds h1
        rw [if_neg hall]

theorem foldDup_variantsToDelete (cid : String) :
    ∀ (dups : List Candidate) (st : RunState),
      (dups.foldl (processDuplicate cid) st).variantsToDelete =
        st.variantsToDelete ++ dups.map (·.id) := by
  intro dups
  induction dups with
  | nil => intro st; simp
  | cons d ds ih =>
    intro st
    simp only [List.foldl_cons, List.map_cons]
    rw [ih, processDuplicate_variantsToDelete]
    simp

theorem processEntry_of_sort_nil {st : RunState} {e : GroupEntry}
    (hsort : insertionSortB (keeperLEb e.canonicalId) e.candidates = []) :
    processEntry st e = st := by
  unfold processEntry
  rw [hsort]

theorem processEntry_of_sort_cons {st : RunState} {e : GroupEntry}
    {keeper : Candidate} {dups : List Candidate}
    (hsort : insertionSortB (keeperLEb e.canonicalId) e.candidates = keeper :: dups) :
    processEntry st e =
      mergeLogStep (dups.foldl (processDuplicate e.canonicalId) (keeperStep st e keeper))
        e dups := by
  unfold processEntry
  rw [hsort]

theorem keeperStep_migrationMap (st : RunState) (e : GroupEntry) (keeper : Candidate) :
    (keeperStep st e keeper).migrationMap = mapSet st.migrationMap keeper.id e.canonicalId := by
  unfold keeperStep
  by_cases h : keeper.external_id ≠ e.canonicalId
  · rw [if_pos h]
  · rw [if_neg h]

theorem keeperStep_variantsToDelete (st : RunState) (e : GroupEntry) (keeper : Candidate) :
    (keeperStep st e keeper).variantsToDelete = st.variantsToDelete := by
  unfold keeperStep
  by_cases h : keeper.external_id ≠ e.canonicalId
  · rw [if_pos h]
  · rw [if_neg h]

theorem mergeLogStep_migrationMap (st : RunState) (e : GroupEntry) (dups : List Candidate) :
    (mergeLogStep st e dups).migrationMap = st.migrationMap := rfl

theorem mergeLogStep_variantsToDelete (st : RunState) (e : GroupEntry) (dups : List Candidate) :
    (mergeLogStep st e dups).variantsToDelete = st.variantsToDelete := rfl

theorem any_id_congr_of_perm {l1 l2 : List Candidate} (hperm : List.Perm l1 l2) (k : String) :
    l1.any (fun c => c.id == k) = l2.any (fun c => c.id == k) := by
  by_cases h : ∃ c ∈ l1, c.id = k
  · rcases h with ⟨c, hc, hck⟩
    have h1 : l1.any (fun c => c.id == k) = true := by
      simp only [List.any_eq_true]
      exact ⟨c, hc, by simpa using hck⟩
    have h2 : l2.any (fun c => c.id == k) = true := by
      simp only [List.any_eq_true]
      exact ⟨c, hperm.mem_iff.mp hc, by simpa using hck⟩
    rw [h1, h2]
  · push_neg at h
    have h1 : l1.any (fun c => c.id == k) = false := by
      simp only [List.any_eq_false]
      intro c hc
      simpa using h c hc
    have h2 : l2.any (fun c => c.id == k) = false := by
      simp only [List.any_eq_false]
      intro c hc
      simpa using h c (hperm.mem_iff.mpr hc)
    rw [h1, h2]

theorem processEntry_migrationMap (st : RunState) (e : GroupEntry) (k : String) :
    mapGet (processEntry st e).migrationMap k =
      if e.candidates.any (fun c => c.id == k) then some e.canonicalId
      else mapGet st.migrationMap k := by
  cases hsort : insertionSortB (keeperLEb e.canonicalId) e.candidates with
  | nil =>
    have hnil : e.candidates = [] := by
      have hp := insertionSortB_perm (keeperLEb e.canonicalId) e.candidates
      rw [hsort] at hp
      exact (List.Perm.nil_eq hp).symm
    rw [processEntry_of_sort_nil hsort, hnil]
    simp
  | cons keeper dups =>
    have hperm : List.Perm (keeper :: dups) e.candidates := by
      have hp := insertionSortB_perm (keeperLEb e.canonicalId) e.candidates
      rw [hsort] at hp
      exact hp
    rw [processEntry_of_sort_cons hsort, mergeLogStep_migrationMap, foldDup_migrationMap,
      ← any_id_congr_of_perm hperm k]
    simp only [List.any_cons, Bool.or_eq_true]
    by_cases hds : dups.any (fun c => c.id == k) = true
    · rw [if_pos hds, if_pos (Or.inr hds)]
    · rw [if_neg hds]
      rw [keeperStep_migrationMap, mapGet_mapSet]
      by_cases hk : keeper.id = k
      · rw [if_pos hk.symm, if_pos (Or.inl (by simpa using hk))]
      · rw [if_neg (fun hc : k = keeper.id => hk hc.symm)]
        rw [if_neg ?_]
        intro hc
        rcases hc with h1 | h1
        · exact hk (by simpa using h1)
        · exact hds h1

theorem processEntry_variantsToDelete (st : RunState) (e : GroupEntry) :
    (processEntry st e).variantsToDelete =
      st.variantsToDelete ++ (groupDuplicates e).map (·.id) := by
  cases hsort : insertionSortB (keeperLEb e.canonicalId) e.candidates with
  | nil =>
    rw [processEntry_of_sort_nil hsort]
    unfold groupDuplicates sortedCandidates
    rw [hsort]
    simp
  | cons keeper dups =>
    rw [processEntry_of_sort_cons hsort, mergeLogStep_variantsToDelete,
      foldDup_variantsToDelete, keeperStep_variantsToDelete]
    unfold groupDuplicates sortedCandidates
    rw [hsort]
    rfl

theorem getLast?_mem {α : Type} {l : List α} {a : α} (h : l.getLast? = some a) : a ∈ l := by
  rcases List.mem_getLast?_eq_getLast h with ⟨hne, heq⟩
  rw [heq]
  exact List.getLast_mem hne

theorem getLast?_cons_of_ne_nil {α : Type} (a : α) {l : List α} (h : l ≠ []) :
    (a :: l).getLast? = l.getLast? := by
  cases l with
  | nil => exact absurd rfl h
  | cons b bs => exact List.getLast?_cons_cons

/-- Migration-map lookups after the whole selection loop: the last
processed group holding a candidate with id `k` wins (with JS `Map.set`
overwrite semantics), and absent any such group the initial state's
binding is returned. -/
theorem resolve_fold_migrationMap :
    ∀ (groups : List GroupEntry) (st : RunState) (k : String),
      mapGet (groups.foldl processEntry st).migrationMap k =
        match (groupsContaining groups k).getLast? with
        | some e => some e.canonicalId
        | none => mapGet st.migrationMap k := by
  intro groups
  induction groups with
  | nil => intro st k; rfl
  | cons e gs ih =>
    intro st k
    simp only [List.foldl_cons]
    rw [ih]
    by_cases hin : e.candidates.any (fun c => c.id == k) = true
    · have hgc : groupsContaining (e :: gs) k = e :: groupsContaining gs k := by
        unfold groupsContaining
        simp only [List.filter_cons, hin]
        rfl
      rw [hgc]
      cases hlast : (groupsContaining gs k).getLast? with
      | some e2 =>
        rw [getLast?_cons_of_ne_nil e (by
          intro hc
          rw [hc] at hlast
          cases hlast), hlast]
      | none =>
        have hnil : groupsContaining gs k = [] := by
          cases hv : groupsContaining gs k with
          | nil => rfl
          | cons x xs =>
            rw [hv] at hlast
            have hne : (x :: xs).getLast? ≠ none := by
              cases xs with
              | nil => simp
              | cons y ys => simp [List.getLast?_cons_cons]
            exact absurd hlast hne
        rw [hnil]
        have h1 : ([e] : List GroupEntry).getLast? = some e := rfl
        rw [h1]
        show mapGet (processEntry st e).migrationMap k = some e.canonicalId
        rw [processEntry_migrationMap, if_pos hin]
    · have hgc : groupsContaining (e :: gs) k = groupsContaining gs k := by
        unfold groupsContaining
        simp only [List.filter_cons, hin]
        rfl
      rw [hgc]
      cases hlast : (groupsContaining gs k).getLast? with
      | some e2 => rfl
      | none =>
        show mapGet (processEntry st e).migrationMap k = mapGet st.migrationMap k
        rw [processEntry_migrationMap, if_neg hin]

/-- Deletion list after the whole selection loop: the concatenation of
every group's duplicate ids, in processing order. -/
theorem resolve_fold_variantsToDelete :
    ∀ (groups : List GroupEntry) (st : RunState),
      (groups.foldl processEntry st).variantsToDelete =
        st.variantsToDelete ++ allDuplicateIds groups := by
  intro groups
  induction groups with
  | nil => intro st; simp [allDuplicateIds]
  | cons e gs ih =>
    intro st
    simp only [List.foldl_cons]
    rw [ih, processEntry_variantsToDelete]
    unfold allDuplicateIds
    simp [List.append_assoc]

/-! ## The grouping pass as a per-record function -/

theorem candidateOfVariant_fields {hm : List (String × HullInfo)} {v : ShipVariantRecord}
    {cid : String} {hull : HullInfo} {c : Candidate}
    (h : candidateOfVariant hm v = some (cid, hull, c)) :
    c.id = v.id ∧ c.external_id = v.external_id := by
  unfold candidateOfVariant at h
  by_cases h1 : v.id = ""
  · rw [if_pos h1] at h; cases h
  · rw [if_neg h1] at h
    cases hj : jsTruthy v.ship with
    | none => rw [hj] at h; cases h
    | some sref =>
      simp only [hj] at h
      cases hg : mapGet hm sref with
      | none =>
        simp only [hg] at h
        exact Option.noConfusion h
      | some hullRef =>
        simp only [hg, Option.some.injEq, Prod.mk.injEq] at h
        rcases h with ⟨h1a, h1b, h1c⟩
        rw [← h1c]
        exact ⟨rfl, rfl⟩

theorem variantCandFor_fields {hm : List (String × HullInfo)} {cid : String}
    {v : ShipVariantRecord} {c : Candidate} (h : variantCandFor hm cid v = some c) :
    c.id = v.id ∧ c.external_id = v.external_id := by
  unfold variantCandFor at h
  cases hcv : candidateOfVariant hm v with
  | none => rw [hcv] at h; cases h
  | some p =>
    rw [hcv] at h
    rcases p with ⟨cid2, hull, cand⟩
    by_cases he : cid2 = cid
    · have h2 : some cand = some c := by
        have : (if cid2 = cid then some cand else none) = some c := h
        rwa [if_pos he] at this
      rw [← Option.some.inj h2]
      exact candidateOfVariant_fields hcv
    · have : (if cid2 = cid then some cand else none) = some c := h
      rw [if_neg he] at this
      cases this

theorem candidatesIn_nil (cid : String) : candidatesIn [] cid = [] := rfl

theorem candidatesIn_pushCandidate_same (gs : List GroupEntry) (cid h b : String)
    (c : Candidate) :
    candidatesIn (pushCandidate gs cid h b c) cid = candidatesIn gs cid ++ [c] := by
  induction gs with
  | nil =>
    simp [pushCandidate, candidatesIn, List.find?]
  | cons e rest ih =>
    by_cases he : e.canonicalId = cid
    · simp only [pushCandidate, if_pos he]
      unfold candidatesIn
      rw [List.find?_cons_of_pos _ (by simpa using he),
        List.find?_cons_of_pos _ (by simpa using he)]
    · simp only [pushCandidate, if_neg he]
      unfold candidatesIn
      rw [List.find?_cons_of_neg _ (by simpa using he),
        List.find?_cons_of_neg _ (by simpa using he)]
      exact ih

theorem candidatesIn_pushCandidate_other (gs : List GroupEntry) (cid h b : String)
    (c : Candidate) (cid2 : String) (hne : cid2 ≠ cid) :
    candidatesIn (pushCandidate gs cid h b c) cid2 = candidatesIn gs cid2 := by
  induction gs with
  | nil =>
    unfold pushCandidate candidatesIn
    rw [List.find?_cons_of_neg _ (by simpa using fun hc : cid = cid2 => hne hc.symm)]
  | cons e rest ih =>
    by_cases he : e.canonicalId = cid
    · simp only [pushCandidate, if_pos he]
      unfold candidatesIn
      by_cases he2 : e.canonicalId = cid2
      · exact absurd (he2.symm.trans he) hne
      · rw [List.find?_cons_of_neg _ (by simpa using he2),
          List.find?_cons_of_neg _ (by simpa using he2)]
    · simp only [pushCandidate, if_neg he]
      unfold candidatesIn
      by_cases he2 : e.canonicalId = cid2
      · rw [List.find?_cons_of_pos _ (by simpa using he2),
          List.find?_cons_of_pos _ (by simpa using he2)]
      · rw [List.find?_cons_of_neg _ (by simpa using he2),
          List.find?_cons_of_neg _ (by simpa using he2)]
        exact ih

/-- The candidate list accumulated under each canonical id is exactly the
per-record resolution function mapped over the input, in arrival order. -/
theorem collect_candidatesIn (hm : List (String × HullInfo)) :
    ∀ (l : List ShipVariantRecord) (gs : List GroupEntry) (cid : String),
      candidatesIn (l.foldl (collectStep hm) gs) cid =
        candidatesIn gs cid ++ l.filterMap (variantCandFor hm cid) := by
  intro l
  induction l with
  | nil => intro gs cid; simp
  | cons v vs ih =>
    intro gs cid
    simp only [List.foldl_cons, List.filterMap_cons]
    cases hcv : candidateOfVariant hm v with
    | none =>
      have hstep : collectStep hm gs v = gs := by
        unfold collectStep
        rw [hcv]
      have hvc : variantCandFor hm cid v = none := by
        unfold variantCandFor
        rw [hcv]
      rw [hstep, hvc, ih]
    | some p =>
      rcases p with ⟨cidv, hull, cand⟩
      have hstep : collectStep hm gs v = pushCandidate gs cidv hull.hullKey hull.baseName cand := by
        unfold collectStep
        rw [hcv]
      rw [hstep, ih]
      by_cases he : cidv = cid
      · subst he
        have hvc : variantCandFor hm cidv v = some cand := by
          unfold variantCandFor
          rw [hcv]
          simp
        rw [hvc, candidatesIn_pushCandidate_same]
        simp
      · have hvc : variantCandFor hm cid v = none := by
          unfold variantCandFor
          rw [hcv]
          simp only [if_neg he]
        rw [hvc, candidatesIn_pushCandidate_other _ _ _ _ _ _ (fun hc => he hc.symm)]

theorem keeperOf_eq_candidatesIn (groups : List GroupEntry) (cid : String) :
    keeperOf groups cid = (insertionSortB (keeperLEb cid) (candidatesIn groups cid)).head? := by
  unfold keeperOf candidatesIn
  cases hf : groups.find? (fun e => e.canonicalId == cid) with
  | none => rfl
  | some e =>
    have hpred := List.find?_some hf
    have he : e.canonicalId = cid := by simpa using hpred
    show (insertionSortB (keeperLEb e.canonicalId) e.candidates).head? =
      (insertionSortB (keeperLEb cid) e.candidates).head?
    rw [he]

theorem variantCandFor_some {hm : List (String × HullInfo)} {cid : String}
    {v : ShipVariantRecord} {c : Candidate} (h : variantCandFor hm cid v = some c) :
    ∃ hull, candidateOfVariant hm v = some (cid, hull, c) := by
  unfold variantCandFor at h
  cases hcv : candidateOfVariant hm v with
  | none => rw [hcv] at h; cases h
  | some p =>
    rcases p with ⟨cid2, hull, cand⟩
    rw [hcv] at h
    by_cases he : cid2 = cid
    · subst he
      have h2 : cand = c := by simpa using h
      refine ⟨hull, ?_⟩
      rw [h2]
    · simp [he] at h

theorem cand_mem_collect {hm : List (String × HullInfo)} {l : List ShipVariantRecord}
    {X : String} {hull : HullInfo} {cand : Candidate} {v : ShipVariantRecord}
    (hv : v ∈ l) (hcv : candidateOfVariant hm v = some (X, hull, cand)) :
    cand ∈ candidatesIn (collectGroups hm l) X := by
  unfold collectGroups
  rw [collect_candidatesIn, candidatesIn_nil, List.nil_append]
  refine List.mem_filterMap.mpr ⟨v, hv, ?_⟩
  unfold variantCandFor
  rw [hcv]
  simp

theorem pushCandidate_map_cid_of_mem (gs : List GroupEntry) (cid h b : String)
    (c : Candidate) (hmem : ∃ e ∈ gs, e.canonicalId = cid) :
    (pushCandidate gs cid h b c).map (·.canonicalId) = gs.map (·.canonicalId) := by
  induction gs with
  | nil => simp at hmem
  | cons e rest ih =>
    by_cases he : e.canonicalId = cid
    · simp only [pushCandidate, if_pos he, List.map_cons]
    · simp only [pushCandidate, if_neg he, List.map_cons]
      rw [ih]
      rcases hmem with ⟨e2, he2, he2c⟩
      rcases List.mem_cons.mp he2 with he3 | he3
      · exact absurd (by rw [← he3]; exact he2c) he
      · exact ⟨e2, he3, he2c⟩

theorem pushCandidate_map_cid_of_not_mem (gs : List GroupEntry) (cid h b : String)
    (c : Candidate) (hmem : ¬∃ e ∈ gs, e.canonicalId = cid) :
    (pushCandidate gs cid h b c).map (·.canonicalId) = gs.map (·.canonicalId) ++ [cid] := by
  induction gs with
  | nil => simp [pushCandidate]
  | cons e rest ih =>
    by_cases he : e.canonicalId = cid
    · exact absurd ⟨e, List.mem_cons_self e rest, he⟩ hmem
    · simp only [pushCandidate, if_neg he, List.map_cons]
      rw [ih (fun hc => hmem (by rcases hc with ⟨e2, he2, he2c⟩; exact ⟨e2, List.mem_cons_of_mem e he2, he2c⟩))]
      rfl

theorem collect_cids_nodup (hm : List (String × HullInfo)) :
    ∀ (l : List ShipVariantRecord) (gs : List GroupEntry),
      (gs.map (·.canonicalId)).Nodup →
      ((l.foldl (collectStep hm) gs).map (·.canonicalId)).Nodup := by
  intro l
  induction l with
  | nil => intro gs hnd; simpa using hnd
  | cons v vs ih =>
    intro gs hnd
    simp only [List.foldl_cons]
    refine ih (collectStep hm gs v) ?_
    cases hcv : candidateOfVariant hm v with
    | none =>
      have : collectStep hm gs v = gs := by unfold collectStep; rw [hcv]
      rw [this]
      exact hnd
    | some p =>
      rcases p with ⟨cidv, hull, cand⟩
      have hstep : collectStep hm gs v = pushCandidate gs cidv hull.hullKey hull.baseName cand := by
        unfold collectStep
        rw [hcv]
      rw [hstep]
      by_cases hmem : ∃ e ∈ gs, e.canonicalId = cidv
      · rw [pushCandidate_map_cid_of_mem gs cidv _ _ cand hmem]
        exact hnd
      · rw [pushCandidate_map_cid_of_not_mem gs cidv _ _ cand hmem]
        rw [List.nodup_append]
        refine ⟨hnd, List.nodup_singleton cidv, ?_⟩
        intro x hx hx2
        have hxc : x = cidv := by simpa using hx2
        subst hxc
        rcases List.mem_map.mp hx with ⟨e, he, hec⟩
        exact hmem ⟨e, he, hec⟩

theorem find?_entry_self {groups : List GroupEntry}
    (hnd : (groups.map (·.canonicalId)).Nodup) {e : GroupEntry} (he : e ∈ groups) :
    groups.find? (fun x => x.canonicalId == e.canonicalId) = some e := by
  induction groups with
  | nil => exact absurd he (List.not_mem_nil e)
  | cons g gs ih =>
    rcases List.mem_cons.mp he with heg | heg
    · rw [heg]
      exact List.find?_cons_of_pos _ (by simp)
    · by_cases hp : g.canonicalId = e.canonicalId
      · exfalso
        simp only [List.map_cons, List.nodup_cons] at hnd
        refine hnd.1 ?_
        rw [hp]
        exact List.mem_map_of_mem _ heg
      · rw [List.find?_cons_of_neg _ (by simpa using hp)]
        simp only [List.map_cons, List.nodup_cons] at hnd
        exact ih hnd.2 heg

theorem entry_candidates_eq {groups : List GroupEntry}
    (hnd : (groups.map (·.canonicalId)).Nodup) {e : GroupEntry} (he : e ∈ groups) :
    e.candidates = candidatesIn groups e.canonicalId := by
  unfold candidatesIn
  rw [find?_entry_self hnd he]

theorem mem_eq_of_nodup_map {α β : Type} {f : α → β} {l : List α} (h : (l.map f).Nodup)
    {a b : α} (ha : a ∈ l) (hb : b ∈ l) (he : f a = f b) : a = b := by
  have hpw : l.Pairwise (fun x y => f x ≠ f y) := List.pairwise_map.mp h
  induction l with
  | nil => exact absurd ha (List.not_mem_nil a)
  | cons x xs ih =>
    rcases List.pairwise_cons.mp hpw with ⟨hx, hxs⟩
    rcases List.mem_cons.mp ha with ha2 | ha2
    · rcases List.mem_cons.mp hb with hb2 | hb2
      · rw [ha2, hb2]
      · rw [ha2] at he
        exact absurd he (hx b hb2)
    · rcases List.mem_cons.mp hb with hb2 | hb2
      · rw [hb2] at he
        exact absurd he.symm (hx a ha2)
      · simp only [List.map_cons, List.nodup_cons] at h
        exact ih h.2 ha2 hb2 hxs

/-- Every group of a grouping pass holding a candidate with id `k` comes
from some input record with that id (and the entry's canonical id is that
record's resolved canonical id). -/
theorem gc_entry_variant {hm : List (String × HullInfo)} {l : List ShipVariantRecord}
    {k : String} {e : GroupEntry}
    (he : e ∈ groupsContaining (collectGroups hm l) k) :
    ∃ v ∈ l, v.id = k ∧ ∃ hull cand, candidateOfVariant hm v = some (e.canonicalId, hull, cand) := by
  have hmem := List.mem_filter.mp he
  have hany : ∃ c ∈ e.candidates, c.id = k := by
    have := hmem.2
    simp only [List.any_eq_true] at this
    rcases this with ⟨c, hc, hck⟩
    exact ⟨c, hc, by simpa using hck⟩
  rcases hany with ⟨c, hc, hck⟩
  have hnd : ((collectGroups hm l).map (·.canonicalId)).Nodup := by
    unfold collectGroups
    exact collect_cids_nodup hm l [] (by simp)
  have hcand : e.candidates = candidatesIn (collectGroups hm l) e.canonicalId :=
    entry_candidates_eq hnd hmem.1
  rw [hcand] at hc
  unfold collectGroups at hc
  rw [collect_candidatesIn, candidatesIn_nil, List.nil_append] at hc
  rcases List.mem_filterMap.mp hc with ⟨v, hv, hvc⟩
  rcases variantCandFor_some hvc with ⟨hull, hcv⟩
  have hfields := candidateOfVariant_fields hcv
  exact ⟨v, hv, by rw [← hfields.1]; exact hck, hull, c, hcv⟩

/-- A grouping pass has a group holding id `k` exactly when some input
record with id `k` resolves successfully. -/
theorem gc_collect_ne_nil_iff {hm : List (String × HullInfo)} {l : List ShipVariantRecord}
    {k : String} :
    groupsContaining (collectGroups hm l) k ≠ [] ↔
      ∃ v ∈ l, v.id = k ∧ ∃ X hull cand, candidateOfVariant hm v = some (X, hull, cand) := by
  constructor
  · intro h
    rcases List.exists_cons_of_ne_nil h with ⟨e, es, hes⟩
    have he : e ∈ groupsContaining (collectGroups hm l) k := by rw [hes]; simp
    rcases gc_entry_variant he with ⟨v, hv, hvk, hull, cand, hcv⟩
    exact ⟨v, hv, hvk, e.canonicalId, hull, cand, hcv⟩
  · intro h
    rcases h with ⟨v, hv, hvk, X, hull, cand, hcv⟩
    have hcin : cand ∈ candidatesIn (collectGroups hm l) X := cand_mem_collect hv hcv
    have hfind : ∃ e, (collectGroups hm l).find? (fun x => x.canonicalId == X) = some e := by
      cases hf : (collectGroups hm l).find? (fun x => x.canonicalId == X) with
      | none =>
        unfold candidatesIn at hcin
        rw [hf] at hcin
        exact absurd hcin (List.not_mem_nil cand)
      | some e => exact ⟨e, rfl⟩
    rcases hfind with ⟨e, hf⟩
    have hemem : e ∈ collectGroups hm l := List.mem_of_find?_eq_some hf
    have hcand : cand ∈ e.candidates := by
      unfold candidatesIn at hcin
      rw [hf] at hcin
      exact hcin
    have hegc : e ∈ groupsContaining (collectGroups hm l) k := by
      unfold groupsContaining
      refine List.mem_filter.mpr ⟨hemem, ?_⟩
      simp only [List.any_eq_true]
      refine ⟨cand, hcand, ?_⟩
      have := (candidateOfVariant_fields hcv).1
      simp only [beq_iff_eq]
      rw [this, hvk]
    intro hc
    rw [hc] at hegc
    exact absurd hegc (List.not_mem_nil e)

theorem getLast?_isSome_of_ne_nil {α : Type} {l : List α} (h : l ≠ []) :
    ∃ a, l.getLast? = some a := by
  cases l with
  | nil => exact absurd rfl h
  | cons x xs =>
    cases hv : (x :: xs).getLast? with
    | some a => exact ⟨a, rfl⟩
    | none =>
      have hne : (x :: xs).getLast? ≠ none := by
        cases xs with
        | nil => simp
        | cons y ys => simp [List.getLast?_cons_cons]
      exact absurd hv hne

theorem filterMap_ids_sublist (hm : List (String × HullInfo)) (cid : String) :
    ∀ l : List ShipVariantRecord,
      List.Sublist ((l.filterMap (variantCandFor hm cid)).map (·.id)) (l.map (·.id)) := by
  intro l
  induction l with
  | nil => simp
  | cons v vs ih =>
    simp only [List.filterMap_cons]
    cases hvc : variantCandFor hm cid v with
    | none =>
      simp only [List.map_cons]
      exact ih.cons _
    | some c =>
      simp only [List.map_cons]
      rw [(variantCandFor_fields hvc).1]
      exact ih.cons₂ _

theorem filterMap_exts_sublist (hm : List (String × HullInfo)) (cid : String) :
    ∀ l : List ShipVariantRecord,
      List.Sublist ((l.filterMap (variantCandFor hm cid)).map (·.external_id))
        (l.map (·.external_id)) := by
  intro l
  induction l with
  | nil => simp
  | cons v vs ih =>
    simp only [List.filterMap_cons]
    cases hvc : variantCandFor hm cid v with
    | none =>
      simp only [List.map_cons]
      exact ih.cons _
    | some c =>
      simp only [List.map_cons]
      rw [(variantCandFor_fields hvc).2]
      exact ih.cons₂ _

/-! ## Claim C1: order-independence of the resolution pass -/

/-- C1: for a fixed ships table and a fixed multiset of variant records
with duplicate-free ids and duplicate-free external ids, the migration
map (as a lookup function) and the keeper choice of every canonical group
are identical across all arrival orders. -/
theorem resolver_determinism (ships : List ShipRecord) (l1 l2 : List ShipVariantRecord)
    (hperm : List.Perm l1 l2)
    (hid : (l1.map (·.id)).Nodup)
    (hext : (l1.map (·.external_id)).Nodup) :
    (∀ k, mapGet (runMigration ships l1).2.migrationMap k =
          mapGet (runMigration ships l2).2.migrationMap k) ∧
    (∀ cid, keeperOf (runMigration ships l1).1 cid =
            keeperOf (runMigration ships l2).1 cid) := by
  constructor
  · intro k
    have h1 : mapGet (runMigration ships l1).2.migrationMap k =
        match (groupsContaining (collectGroups (buildHullMap ships) l1) k).getLast? with
        | some e => some e.canonicalId
        | none => none := by
      show mapGet ((collectGroups (buildHullMap ships) l1).foldl processEntry
        initState).migrationMap k = _
      rw [resolve_fold_migrationMap]
      cases (groupsContaining (collectGroups (buildHullMap ships) l1) k).getLast? with
      | some e => rfl
      | none => rfl
    have h2 : mapGet (runMigration ships l2).2.migrationMap k =
        match (groupsContaining (collectGroups (buildHullMap ships) l2) k).getLast? with
        | some e => some e.canonicalId
        | none => none := by
      show mapGet ((collectGroups (buildHullMap ships) l2).foldl processEntry
        initState).migrationMap k = _
      rw [resolve_fold_migrationMap]
      cases (groupsContaining (collectGroups (buildHullMap ships) l2) k).getLast? with
      | some e => rfl
      | none => rfl
    rw [h1, h2]
    cases hgl1 : (groupsContaining (collectGroups (buildHullMap ships) l1) k).getLast? with
    | none =>
      cases hgl2 : (groupsContaining (collectGroups (buildHullMap ships) l2) k).getLast? with
      | none => rfl
      | some e2 =>
        exfalso
        have hne2 : groupsContaining (collectGroups (buildHullMap ships) l2) k ≠ [] := by
          intro hc
          rw [hc] at hgl2
          cases hgl2
        rcases gc_collect_ne_nil_iff.mp hne2 with ⟨v, hv, hvk, X, hull, cand, hcv⟩
        have hne1 : groupsContaining (collectGroups (buildHullMap ships) l1) k ≠ [] :=
          gc_collect_ne_nil_iff.mpr ⟨v, hperm.mem_iff.mpr hv, hvk, X, hull, cand, hcv⟩
        rcases getLast?_isSome_of_ne_nil hne1 with ⟨a, ha⟩
        rw [ha] at hgl1
        cases hgl1
    | some e1 =>
      have he1mem : e1 ∈ groupsContaining (collectGroups (buildHullMap ships) l1) k :=
        getLast?_mem hgl1
      rcases gc_entry_variant he1mem with ⟨v1, hv1, hv1k, hull1, cand1, hcv1⟩
      have hne2 : groupsContaining (collectGroups (buildHullMap ships) l2) k ≠ [] :=
        gc_collect_ne_nil_iff.mpr
          ⟨v1, hperm.mem_iff.mp hv1, hv1k, e1.canonicalId, hull1, cand1, hcv1⟩
      rcases getLast?_isSome_of_ne_nil hne2 with ⟨e2, hgl2⟩
      rw [hgl2]
      have he2mem : e2 ∈ groupsContaining (collectGroups (buildHullMap ships) l2) k :=
        getLast?_mem hgl2
      rcases gc_entry_variant he2mem with ⟨v2, hv2, hv2k, hull2, cand2, hcv2⟩
      have hv2in1 : v2 ∈ l1 := hperm.mem_iff.mpr hv2
      have hveq : v1 = v2 := mem_eq_of_nodup_map hid hv1 hv2in1 (by rw [hv1k, hv2k])
      rw [hveq] at hcv1
      rw [hcv1] at hcv2
      have hcid := congrArg (fun p : String × HullInfo × Candidate => p.1)
        (Option.some.inj hcv2)
      simp only at hcid
      show some e1.canonicalId = some e2.canonicalId
      rw [hcid]
  · intro cid
    have h1 : keeperOf (runMigration ships l1).1 cid =
        (insertionSortB (keeperLEb cid)
          (l1.filterMap (variantCandFor (buildHullMap ships) cid))).head? := by
      show keeperOf (collectGroups (buildHullMap ships) l1) cid = _
      rw [keeperOf_eq_candidatesIn]
      unfold collectGroups
      rw [collect_candidatesIn, candidatesIn_nil, List.nil_append]
    have h2 : keeperOf (runMigration ships l2).1 cid =
        (insertionSortB (keeperLEb cid)
          (l2.filterMap (variantCandFor (buildHullMap ships) cid))).head? := by
      show keeperOf (collectGroups (buildHullMap ships) l2) cid = _
      rw [keeperOf_eq_candidatesIn]
      unfold collectGroups
      rw [collect_candidatesIn, candidatesIn_nil, List.nil_append]
    rw [h1, h2]
    refine keeper_head_unique (hperm.filterMap _) ?_
    have hsub := filterMap_exts_sublist (buildHullMap ships) cid l1
    have hnd : ((l1.filterMap (variantCandFor (buildHullMap ships) cid)).map
        (·.external_id)).Nodup := List.Nodup.sublist hsub hext
    exact List.pairwise_map.mp hnd

/-- C1 witness: the determinism theorem applied to the two orders of the
Aurora batch, evaluated at record `A` and the Aurora group. -/
theorem resolver_determinism_witness :
    mapGet (runMigration [⟨"S", "RSI_AURORA", none, none⟩]
        [⟨"A", "A", some "S", some "Aurora MR"⟩,
         ⟨"B", "RSI_AURORA_MR", some "S", none⟩]).2.migrationMap "A" =
      mapGet (runMigration [⟨"S", "RSI_AURORA", none, none⟩]
        [⟨"B", "RSI_AURORA_MR", some "S", none⟩,
         ⟨"A", "A", some "S", some "Aurora MR"⟩]).2.migrationMap "A" ∧
    keeperOf (runMigration [⟨"S", "RSI_AURORA", none, none⟩]
        [⟨"A", "A", some "S", some "Aurora MR"⟩,
         ⟨"B", "RSI_AURORA_MR", some "S", none⟩]).1 "RSI_AURORA_MR" =
      keeperOf (runMigration [⟨"S", "RSI_AURORA", none, none⟩]
        [⟨"B", "RSI_AURORA_MR", some "S", none⟩,
         ⟨"A", "A", some "S", some "Aurora MR"⟩]).1 "RSI_AURORA_MR" :=
  have h := resolver_determinism [⟨"S", "RSI_AURORA", none, none⟩]
    [⟨"A", "A", some "S", some "Aurora MR"⟩, ⟨"B", "RSI_AURORA_MR", some "S", none⟩]
    [⟨"B", "RSI_AURORA_MR", some "S", none⟩, ⟨"A", "A", some "S", some "Aurora MR"⟩]
    (List.Perm.swap _ _ _) (by decide) (by decide)
  ⟨h.1 "A", h.2 "RSI_AURORA_MR"⟩

/-! ## Claims C3 and C4: the Zeus examples -/

/-- C4: on `"RSI Zeus Mk II CL"` with manufacturer `RSI` the variant code
is `CL`, but the tokenizer keeps `MK` and `II` as separate underscore-
joined tokens, so the hull key is `RSI_ZEUS_MK_II` (not `RSI_ZEUS_MKII`)
and the canonical variant id is `RSI_ZEUS_MK_II_CL` — contradicting the
claim, the spec, and the code's own comment in `transform.ts`. -/
theorem zeus_example_eval :
    extractVariantCode "RSI Zeus Mk II CL" = "CL" ∧
    cleanFamilyName "RSI Zeus Mk II CL" "CL" (some "RSI") = "ZEUS_MK_II" ∧
    buildHullKey (some "RSI") (some (cleanFamilyName "RSI Zeus Mk II CL" "CL" (some "RSI"))) =
      "RSI_ZEUS_MK_II" ∧
    toCanonicalVariantExtId "RSI_ZEUS_MK_II" "CL" = "RSI_ZEUS_MK_II_CL" ∧
    ("RSI_ZEUS_MK_II" : String) ≠ "RSI_ZEUS_MKII" ∧
    ("RSI_ZEUS_MK_II_CL" : String) ≠ "RSI_ZEUS_MKII_CL" := by
  refine ⟨by decide, by decide, by decide, by decide, by decide, by decide⟩

/-- C3: on `"Zeus Mk II CL Warbond IAE 2954"` the edition detector has no
numeric-append step, so it yields `IAE_WARBOND` (not `IAE2954_WARBOND`),
and the trailing year token `2954` survives the family-name filter, so
the canonical variant id is `RSI_ZEUS_MK_II_2954_CL`, which differs from
the non-edition designation's id `RSI_ZEUS_MK_II_CL` — contradicting the
claim and the code's own comment in `transform.ts`. -/
theorem zeus_warbond_eval :
    (detectEditionOrLivery "Zeus Mk II CL Warbond IAE 2954").editionCode =
      some "IAE_WARBOND" ∧
    (detectEditionOrLivery "Zeus Mk II CL Warbond IAE 2954").editionCode ≠
      some "IAE2954_WARBOND" ∧
    extractVariantCode "Zeus Mk II CL Warbond IAE 2954" = "CL" ∧
    cleanFamilyName "Zeus Mk II CL Warbond IAE 2954" "CL" (some "RSI") = "ZEUS_MK_II_2954" ∧
    toCanonicalVariantExtId
        (buildHullKey (some "RSI")
          (some (cleanFamilyName "Zeus Mk II CL Warbond IAE 2954" "CL" (some "RSI")))) "CL" =
      "RSI_ZEUS_MK_II_2954_CL" ∧
    toCanonicalVariantExtId
        (buildHullKey (some "RSI")
          (some (cleanFamilyName "RSI Zeus Mk II CL" "CL" (some "RSI")))) "CL" =
      "RSI_ZEUS_MK_II_CL" ∧
    ("RSI_ZEUS_MK_II_2954_CL" : String) ≠ "RSI_ZEUS_MK_II_CL" := by
  refine ⟨by decide, by decide, by decide, by decide, by decide, by decide, by decide⟩

/-! ## Claim C6: the edition-metadata cascade on installed items -/

/-- C6 counterexample: a dependent installed item carrying its own
explicit profile `CUSTOM` is repointed from duplicate `D` and receives
the duplicate's edition code `IAE_WARBOND` instead — duplicate-supplied
metadata does overwrite the dependent's explicit value. -/
theorem cascade_overwrites_explicit :
    cascadeOne [("D", "CANON")] [("D", (some "IAE_WARBOND", none))]
        ⟨"I", some "D", some "CUSTOM", some "Red"⟩ =
      some ⟨"I", "CANON", some "IAE_WARBOND", some "Red"⟩ ∧
    (some "IAE_WARBOND" : Option String) ≠ some "CUSTOM" := by
  refine ⟨by decide, by decide⟩

/-- C6 (amended): the cascade resolves `profile`/`livery` as
`edition ?? own ?? null`: metadata recorded against the duplicate takes
precedence over the dependent record's explicit value, and the
dependent's own value survives exactly when the duplicate recorded
none. -/
theorem cascade_precedence (mig : List (String × String))
    (ed : List (String × (Option String × Option String)))
    (i : InstalledItemRecord) (u : InstalledUpdate)
    (h : cascadeOne mig ed i = some u) :
    ∃ variantRef, jsTruthy i.ship_variant = some variantRef ∧
      u.profile = ((mapGet ed variantRef).bind Prod.fst).orElse (fun _ => i.profile) ∧
      u.livery = ((mapGet ed variantRef).bind Prod.snd).orElse (fun _ => i.livery) ∧
      ((mapGet ed variantRef).bind Prod.fst = none → u.profile = i.profile) ∧
      ((mapGet ed variantRef).bind Prod.snd = none → u.livery = i.livery) := by
  unfold cascadeOne at h
  cases hjt : jsTruthy i.ship_variant with
  | none => rw [hjt] at h; cases h
  | some variantRef =>
    simp only [hjt] at h
    cases hmg : mapGet mig variantRef with
    | none =>
      simp only [hmg] at h
      exact Option.noConfusion h
    | some canonical =>
      simp only [hmg] at h
      by_cases hcv : canonical = "" ∨ canonical = variantRef
      · rw [if_pos hcv] at h
        cases h
      · rw [if_neg hcv] at h
        refine ⟨variantRef, rfl, ?_, ?_, ?_, ?_⟩
        · rw [← Option.some.inj h]
        · rw [← Option.some.inj h]
        · intro hp
          rw [← Option.some.inj h]
          show ((mapGet ed variantRef).bind Prod.fst).orElse (fun _ => i.profile) = i.profile
          rw [hp]
          rfl
        · intro hl
          rw [← Option.some.inj h]
          show ((mapGet ed variantRef).bind Prod.snd).orElse (fun _ => i.livery) = i.livery
          rw [hl]
          rfl

/-- C6 witness: the amended theorem applied to a concrete cascade where
the duplicate recorded no livery, so the dependent's own livery
survives. -/
theorem cascade_precedence_witness :
    ∃ variantRef,
      jsTruthy (some "D" : Option String) = some variantRef ∧
      (some "IAE_WARBOND" : Option String) =
        ((mapGet [("D", ((some "IAE_WARBOND" : Option String),
          (none : Option String)))] variantRef).bind Prod.fst).orElse
          (fun _ => some "CUSTOM") ∧
      (some "Red" : Option String) =
        ((mapGet [("D", ((some "IAE_WARBOND" : Option String),
          (none : Option String)))] variantRef).bind Prod.snd).orElse
          (fun _ => some "Red") ∧
      ((mapGet [("D", ((some "IAE_WARBOND" : Option String),
          (none : Option String)))] variantRef).bind Prod.fst = none →
        (some "IAE_WARBOND" : Option String) = some "CUSTOM") ∧
      ((mapGet [("D", ((some "IAE_WARBOND" : Option String),
          (none : Option String)))] variantRef).bind Prod.snd = none →
        (some "Red" : Option String) = some "Red") :=
  cascade_precedence [("D", "CANON")]
    [("D", ((some "IAE_WARBOND" : Option String), (none : Option String)))]
    ⟨"I", some "D", some "CUSTOM", some "Red"⟩
    ⟨"I", "CANON", some "IAE_WARBOND", some "Red"⟩ (by decide)

/-! ## Claim C2: re-feeding the keeper through the pipeline -/

/-- C2 counterexample: a variant with the non-vocabulary fallback code
`V` is rewritten by the first pass (external id `RSI_AURORA_V`, display
name `Aurora V`); re-feeding that keeper as a single-member group
re-extracts the fallback code `AURORA` from the new display name and
computes the different canonical id `RSI_AURORA_AURORA`, together with a
fresh keeper rewrite — not zero changes. -/
theorem keeper_refeed_diverges :
    (runMigration [⟨"S", "RSI_AURORA", none, none⟩]
        [⟨"V", "V", some "S", none⟩]).2.keeperUpdates =
      [⟨"V", "RSI_AURORA_V", "V", "Aurora V"⟩] ∧
    (runMigration [⟨"S", "RSI_AURORA", none, none⟩]
        [⟨"V", "RSI_AURORA_V", some "S", some "Aurora V"⟩]).1.map (·.canonicalId) =
      ["RSI_AURORA_AURORA"] ∧
    ("RSI_AURORA_AURORA" : String) ≠ "RSI_AURORA_V" ∧
    (runMigration [⟨"S", "RSI_AURORA", none, none⟩]
        [⟨"V", "RSI_AURORA_V", some "S", some "Aurora V"⟩]).2.keeperUpdates.length = 1 := by
  refine ⟨by decide, by decide, by decide, by decide⟩

/-- C2 (amended): re-feeding a post-pass keeper record (external id
already equal to its canonical id) as a fresh single-member group
reproduces the same canonical id, selects that record as keeper, and
performs no keeper rewrite, no deletion and no merge — provided that
re-extracting the variant code from the record's name source again
yields a code whose canonical id is the record's external id.  The
counterexample shows this proviso is necessary: a rewritten keeper with
a non-vocabulary fallback code violates it. -/
theorem keeper_refeed_idempotent (hm : List (String × HullInfo)) (s : String)
    (hull : HullInfo) (v : ShipVariantRecord)
    (hid : v.id ≠ "") (hship : v.ship = some s) (hsne : s ≠ "")
    (hhm : mapGet hm s = some hull)
    (hvc : toCanonicalVariantExtId hull.hullKey
        (extractVariantCode
          (if (v.name.getD v.external_id) = "" then v.external_id
           else v.name.getD v.external_id)) = v.external_id) :
    ∃ cand : Candidate,
      collectGroups hm [v] = [⟨v.external_id, hull.hullKey, hull.baseName, [cand]⟩] ∧
      cand.id = v.id ∧ cand.external_id = v.external_id ∧
      keeperOf (collectGroups hm [v]) v.external_id = some cand ∧
      (resolveGroups (collectGroups hm [v])).keeperUpdates = [] ∧
      (resolveGroups (collectGroups hm [v])).variantsToDelete = [] ∧
      mapGet (resolveGroups (collectGroups hm [v])).migrationMap v.id =
        some v.external_id ∧
      (resolveGroups (collectGroups hm [v])).mergeLog = [(v.external_id, [])] := by
  have hjt : jsTruthy v.ship = some s := by
    rw [hship]
    show (if s = "" then none else some s : Option String) = some s
    rw [if_neg hsne]
  have hcv : candidateOfVariant hm v = some (v.external_id, hull,
      ⟨v.id, v.external_id, v.name,
       (detectEditionOrLivery (v.name.getD v.external_id)).editionCode,
       (detectEditionOrLivery (v.name.getD v.external_id)).livery,
       isEditionOnly (v.name.getD v.external_id)⟩) := by
    unfold candidateOfVariant
    rw [if_neg hid]
    simp only [hjt, hhm]
    rw [hvc]
  have hcollect : collectGroups hm [v] = [⟨v.external_id, hull.hullKey, hull.baseName,
      [⟨v.id, v.external_id, v.name,
        (detectEditionOrLivery (v.name.getD v.external_id)).editionCode,
        (detectEditionOrLivery (v.name.getD v.external_id)).livery,
        isEditionOnly (v.name.getD v.external_id)⟩]⟩] := by
    unfold collectGroups
    simp only [List.foldl_cons, List.foldl_nil]
    unfold collectStep
    simp only [hcv]
    rfl
  have hsortEntry : insertionSortB
      (keeperLEb ((⟨v.external_id, hull.hullKey, hull.baseName,
        [⟨v.id, v.external_id, v.name,
          (detectEditionOrLivery (v.name.getD v.external_id)).editionCode,
          (detectEditionOrLivery (v.name.getD v.external_id)).livery,
          isEditionOnly (v.name.getD v.external_id)⟩]⟩ : GroupEntry).canonicalId))
      ((⟨v.external_id, hull.hullKey, hull.baseName,
        [⟨v.id, v.external_id, v.name,
          (detectEditionOrLivery (v.name.getD v.external_id)).editionCode,
          (detectEditionOrLivery (v.name.getD v.external_id)).livery,
          isEditionOnly (v.name.getD v.external_id)⟩]⟩ : GroupEntry).candidates) =
      (⟨v.id, v.external_id, v.name,
        (detectEditionOrLivery (v.name.getD v.external_id)).editionCode,
        (detectEditionOrLivery (v.name.getD v.external_id)).livery,
        isEditionOnly (v.name.getD v.external_id)⟩ : Candidate) :: [] := rfl
  have hresolve : resolveGroups (collectGroups hm [v]) =
      ⟨[(v.id, v.external_id)], [], [], [], [(v.external_id, [])]⟩ := by
    rw [hcollect]
    unfold resolveGroups
    simp only [List.foldl_cons, List.foldl_nil]
    rw [processEntry_of_sort_cons hsortEntry]
    simp only [List.foldl_nil]
    unfold mergeLogStep keeperStep
    rw [if_neg (by simp)]
    rfl
  refine ⟨⟨v.id, v.external_id, v.name,
      (detectEditionOrLivery (v.name.getD v.external_id)).editionCode,
      (detectEditionOrLivery (v.name.getD v.external_id)).livery,
      isEditionOnly (v.name.getD v.external_id)⟩, hcollect, rfl, rfl, ?_, ?_, ?_, ?_, ?_⟩
  · rw [hcollect]
    unfold keeperOf
    rw [List.find?_cons_of_pos _ (by simp)]
    rfl
  · rw [hresolve]
  · rw [hresolve]
  · rw [hresolve]
    show mapGet [(v.id, v.external_id)] v.id = some v.external_id
    simp [mapGet]
  · rw [hresolve]

/-- C2 witness: the amended theorem applied to the post-pass Aurora
keeper, whose vocabulary variant code `MR` re-extracts stably. -/
theorem keeper_refeed_idempotent_witness :
    ∃ cand : Candidate,
      collectGroups [("S", ⟨"RSI_AURORA", "AURORA"⟩)]
          [⟨"B", "RSI_AURORA_MR", some "S", none⟩] =
        [⟨"RSI_AURORA_MR", "RSI_AURORA", "AURORA", [cand]⟩] ∧
      cand.id = "B" ∧ cand.external_id = "RSI_AURORA_MR" ∧
      keeperOf (collectGroups [("S", ⟨"RSI_AURORA", "AURORA"⟩)]
          [⟨"B", "RSI_AURORA_MR", some "S", none⟩]) "RSI_AURORA_MR" = some cand ∧
      (resolveGroups (collectGroups [("S", ⟨"RSI_AURORA", "AURORA"⟩)]
          [⟨"B", "RSI_AURORA_MR", some "S", none⟩])).keeperUpdates = [] ∧
      (resolveGroups (collectGroups [("S", ⟨"RSI_AURORA", "AURORA"⟩)]
          [⟨"B", "RSI_AURORA_MR", some "S", none⟩])).variantsToDelete = [] ∧
      mapGet (resolveGroups (collectGroups [("S", ⟨"RSI_AURORA", "AURORA"⟩)]
          [⟨"B", "RSI_AURORA_MR", some "S", none⟩])).migrationMap "B" =
        some "RSI_AURORA_MR" ∧
      (resolveGroups (collectGroups [("S", ⟨"RSI_AURORA", "AURORA"⟩)]
          [⟨"B", "RSI_AURORA_MR", some "S", none⟩])).mergeLog =
        [("RSI_AURORA_MR", [])] :=
  keeper_refeed_idempotent [("S", ⟨"RSI_AURORA", "AURORA"⟩)] "S"
    ⟨"RSI_AURORA", "AURORA"⟩ ⟨"B", "RSI_AURORA_MR", some "S", none⟩
    (by decide) rfl (by decide) (by decide) (by decide)

/-! ## Claim C10: deletion safety of the resolver -/

theorem mem_of_mem_groupDuplicates {e : GroupEntry} {c : Candidate}
    (h : c ∈ groupDuplicates e) : c ∈ e.candidates := by
  unfold groupDuplicates at h
  have hs : c ∈ sortedCandidates e := List.mem_of_mem_tail h
  unfold sortedCandidates at hs
  exact (insertionSortB_perm (keeperLEb e.canonicalId) e.candidates).mem_iff.mp hs

theorem keeperOfEntry_cons {e : GroupEntry} {keeper : Candidate}
    (h : keeperOfEntry e = some keeper) :
    ∃ dups, sortedCandidates e = keeper :: dups := by
  unfold keeperOfEntry at h
  cases hv : sortedCandidates e with
  | nil => rw [hv] at h; cases h
  | cons a l =>
    rw [hv] at h
    have : a = keeper := by simpa using h
    exact ⟨l, by rw [this]⟩

/-- Entries sharing a candidate id are the same entry, given globally
duplicate-free candidate ids. -/
theorem entry_unique_of_nodup_ids {groups : List GroupEntry}
    (hids : ((groups.map (fun e => e.candidates.map (·.id))).flatten).Nodup) :
    ∀ e1 ∈ groups, ∀ e2 ∈ groups, ∀ x,
      x ∈ e1.candidates.map (·.id) → x ∈ e2.candidates.map (·.id) → e1 = e2 := by
  have hnf := List.nodup_flatten.mp hids
  have hdisj : groups.Pairwise
      (fun e1 e2 => (e1.candidates.map (·.id)).Disjoint (e2.candidates.map (·.id))) :=
    List.pairwise_map.mp hnf.2
  intro e1 h1 e2 h2 x hx1 hx2
  by_contra hne
  have hsym : Symmetric
      (fun e1 e2 : GroupEntry =>
        (e1.candidates.map (·.id)).Disjoint (e2.candidates.map (·.id))) := by
    intro a b hab
    exact List.Disjoint.symm hab
  have hd := List.Pairwise.forall hsym hdisj h1 h2 hne
  exact hd hx1 hx2

/-- C10: with duplicate-free candidate ids, the keeper of every group is
never scheduled for deletion, and every deleted variant id carries a
migration-map entry pointing at its group's canonical id. -/
theorem resolver_delete_safety (groups : List GroupEntry)
    (hids : ((groups.map (fun e => e.candidates.map (·.id))).flatten).Nodup) :
    (∀ e ∈ groups, ∀ keeper, keeperOfEntry e = some keeper →
       keeper.id ∉ (resolveGroups groups).variantsToDelete) ∧
    (∀ d ∈ (resolveGroups groups).variantsToDelete,
       ∃ e ∈ groups, (∃ c ∈ e.candidates, c.id = d) ∧
         mapGet (resolveGroups groups).migrationMap d = some e.canonicalId) := by
  have hdel : (resolveGroups groups).variantsToDelete = allDuplicateIds groups := by
    unfold resolveGroups
    rw [resolve_fold_variantsToDelete]
    rfl
  have hnodup_each : ∀ e ∈ groups, (e.candidates.map (·.id)).Nodup := by
    intro e he
    exact (List.nodup_flatten.mp hids).1 (e.candidates.map (·.id))
      (List.mem_map_of_mem _ he)
  constructor
  · intro e he keeper hk
    rcases keeperOfEntry_cons hk with ⟨dups, hsort⟩
    have hkeepmem : keeper ∈ e.candidates := by
      have : keeper ∈ sortedCandidates e := by rw [hsort]; simp
      unfold sortedCandidates at this
      exact (insertionSortB_perm (keeperLEb e.canonicalId) e.candidates).mem_iff.mp this
    rw [hdel]
    intro hcon
    have hcon2 : ∃ e2, e2 ∈ groups ∧ ∃ dup ∈ groupDuplicates e2, dup.id = keeper.id := by
      simpa [allDuplicateIds] using hcon
    rcases hcon2 with ⟨e2, he2, dup, hdup, hdupid⟩
    have hdup2 : dup ∈ e2.candidates := mem_of_mem_groupDuplicates hdup
    have hids1 : keeper.id ∈ e.candidates.map (·.id) := List.mem_map_of_mem _ hkeepmem
    have hids2 : keeper.id ∈ e2.candidates.map (·.id) := by
      rw [← hdupid]
      exact List.mem_map_of_mem _ hdup2
    have hee : e = e2 := entry_unique_of_nodup_ids hids e he e2 he2 keeper.id hids1 hids2
    subst hee
    have hsortnodup : ((sortedCandidates e).map (·.id)).Nodup := by
      refine List.Perm.nodup ?_ (hnodup_each e he)
      refine List.Perm.map _ ?_
      unfold sortedCandidates
      exact (insertionSortB_perm (keeperLEb e.canonicalId) e.candidates).symm
    rw [hsort] at hsortnodup
    simp only [List.map_cons, List.nodup_cons] at hsortnodup
    refine hsortnodup.1 ?_
    have hdupdups : dup ∈ dups := by
      unfold groupDuplicates at hdup
      rw [hsort] at hdup
      simpa using hdup
    rw [← hdupid]
    exact List.mem_map_of_mem _ hdupdups
  · intro d hd
    rw [hdel] at hd
    have hd2 : ∃ e, e ∈ groups ∧ ∃ dup ∈ groupDuplicates e, dup.id = d := by
      simpa [allDuplicateIds] using hd
    rcases hd2 with ⟨e, he, dup, hdup, hdupid⟩
    have hdup2 : dup ∈ e.candidates := mem_of_mem_groupDuplicates hdup
    refine ⟨e, he, ⟨dup, hdup2, hdupid⟩, ?_⟩
    have hgcne : e ∈ groupsContaining groups d := by
      unfold groupsContaining
      refine List.mem_filter.mpr ⟨he, ?_⟩
      simp only [List.any_eq_true]
      exact ⟨dup, hdup2, by simpa using hdupid⟩
    have hgcnonnil : groupsContaining groups d ≠ [] := by
      intro hc
      rw [hc] at hgcne
      exact absurd hgcne (List.not_mem_nil e)
    rcases getLast?_isSome_of_ne_nil hgcnonnil with ⟨e3, he3⟩
    have he3mem : e3 ∈ groupsContaining groups d := getLast?_mem he3
    have he3g := List.mem_filter.mp he3mem
    have he3any := he3g.2
    simp only [List.any_eq_true] at he3any
    rcases he3any with ⟨c3, hc3, hc3id⟩
    have hee : e = e3 := by
      refine entry_unique_of_nodup_ids hids e he e3 he3g.1 d ?_ ?_
      · rw [← hdupid]
        exact List.mem_map_of_mem _ hdup2
      · have : c3.id = d := by simpa using hc3id
        rw [← this]
        exact List.mem_map_of_mem _ hc3
    unfold resolveGroups
    rw [resolve_fold_migrationMap, he3, ← hee]

/-- C10 witness: the safety theorem applied to the groups of a concrete
two-candidate run, at the deleted id "A". -/
theorem resolver_delete_safety_witness :
    ∃ e ∈ (runMigration [⟨"S", "RSI_AURORA", none, none⟩]
        [⟨"A", "A", some "S", some "Aurora MR"⟩,
         ⟨"B", "RSI_AURORA_MR", some "S", none⟩]).1,
      (∃ c ∈ e.candidates, c.id = "A") ∧
        mapGet (resolveGroups
          (runMigration [⟨"S", "RSI_AURORA", none, none⟩]
            [⟨"A", "A", some "S", some "Aurora MR"⟩,
             ⟨"B", "RSI_AURORA_MR", some "S", none⟩]).1).migrationMap "A" =
          some e.canonicalId :=
  (resolver_delete_safety
    (runMigration [⟨"S", "RSI_AURORA", none, none⟩]
      [⟨"A", "A", some "S", some "Aurora MR"⟩,
       ⟨"B", "RSI_AURORA_MR", some "S", none⟩]).1 (by decide)).2 "A" (by decide)

/-! ## Claim C5: merge completeness of the variant-group construction -/

theorem mem_setAdd_of_mem {l : List String} {x : String} (y : String) (h : x ∈ l) :
    x ∈ setAdd l y := by
  unfold setAdd
  split
  · exact h
  · exact List.mem_append_left _ h

theorem mem_setAdd_self (l : List String) (y : String) : y ∈ setAdd l y := by
  unfold setAdd
  split
  · next hc => simpa using hc
  · exact List.mem_append_right _ (by simp)

theorem applyMemberAdds_records (g : TGroup) (cid : String) (s : TShip)
    (ec lv : Option String) (eo : Bool) (dn : String) (dc : Option String) :
    (applyMemberAdds g cid s ec lv eo dn dc).records
      = g.records ++ [⟨cid, s, ec, lv, eo⟩] := by
  unfold applyMemberAdds
  cases dc <;> split <;> split <;> rfl

theorem applyMemberAdds_names_mono (g : TGroup) (cid : String) (s : TShip)
    (ec lv : Option String) (eo : Bool) (dn : String) (dc : Option String)
    {x : String} (h : x ∈ g.names) :
    x ∈ (applyMemberAdds g cid s ec lv eo dn dc).names := by
  unfold applyMemberAdds
  cases dc <;> split <;> split <;>
    first
      | exact h
      | exact mem_setAdd_of_mem _ h
      | exact mem_setAdd_of_mem _ (mem_setAdd_of_mem _ h)

theorem applyMemberAdds_descriptions_mono (g : TGroup) (cid : String) (s : TShip)
    (ec lv : Option String) (eo : Bool) (dn : String) (dc : Option String)
    {x : String} (h : x ∈ g.descriptions) :
    x ∈ (applyMemberAdds g cid s ec lv eo dn dc).descriptions := by
  unfold applyMemberAdds
  cases dc <;> split <;> split <;>
    first
      | exact h
      | exact mem_setAdd_of_mem _ h

theorem applyMemberAdds_name_added (g : TGroup) (cid : String) (s : TShip)
    (ec lv : Option String) (eo : Bool) (dn : String) (dc : Option String)
    (h1 : ¬eo = true) (h2 : dn ≠ "") :
    dn ∈ (applyMemberAdds g cid s ec lv eo dn dc).names := by
  unfold applyMemberAdds
  cases dc <;> split <;> split <;>
    first
      | exact mem_setAdd_self _ _
      | exact mem_setAdd_of_mem _ (mem_setAdd_self _ _)
      | exact absurd (And.intro h1 h2) (by assumption)

theorem applyMemberAdds_desc_added (g : TGroup) (cid : String) (s : TShip)
    (ec lv : Option String) (eo : Bool) (dn : String) (d : String) :
    d ∈ (applyMemberAdds g cid s ec lv eo dn (some d)).descriptions := by
  unfold applyMemberAdds
  exact mem_setAdd_self _ _

theorem applyMemberAdds_noDataLoss (g : TGroup) (cid : String) (s : TShip)
    (ec lv : Option String) (eo : Bool) (dn : String) (dc : Option String)
    (hdn : dn = tDisplayName s) (hdc : dc = optStr s.description)
    (hg : tNoDataLoss g) :
    tNoDataLoss (applyMemberAdds g cid s ec lv eo dn dc) := by
  subst hdn
  subst hdc
  intro m hm
  rw [applyMemberAdds_records] at hm
  rcases List.mem_append.mp hm with hold | hnew
  · obtain ⟨h1, h2⟩ := hg m hold
    exact ⟨fun he hne => applyMemberAdds_names_mono g cid s ec lv eo _ _ (h1 he hne),
           fun d hd => applyMemberAdds_descriptions_mono g cid s ec lv eo _ _ (h2 d hd)⟩
  · have hm2 : m = ⟨cid, s, ec, lv, eo⟩ := by simpa using hnew
    subst hm2
    constructor
    · intro he hne
      have he2 : eo = false := he
      have hne2 : tDisplayName s ≠ "" := hne
      exact applyMemberAdds_name_added g cid s ec lv eo (tDisplayName s)
        (optStr s.description) (by simp [he2]) hne2
    · intro d hd
      have hd2 : optStr s.description = some d := hd
      rw [hd2]
      exact applyMemberAdds_desc_added g cid s ec lv eo (tDisplayName s) d

theorem tUpdateGroup_noDataLoss (cid hullKey variantCode familyName : String)
    (s : TShip) (ec lv : Option String) (eo : Bool) (dn : String) (dc : Option String)
    (hdn : dn = tDisplayName s) (hdc : dc = optStr s.description) :
    ∀ groups : List TGroup, (∀ g ∈ groups, tNoDataLoss g) →
      ∀ g ∈ tUpdateGroup groups cid hullKey variantCode familyName s ec lv eo dn dc,
        tNoDataLoss g := by
  intro groups
  induction groups with
  | nil =>
    intro _ g hg
    simp only [tUpdateGroup, List.mem_singleton] at hg
    subst hg
    refine applyMemberAdds_noDataLoss _ cid s ec lv eo dn dc hdn hdc ?_
    intro m hm
    exact absurd hm (List.not_mem_nil m)
  | cons g0 rest ih =>
    intro hinv g hg
    simp only [tUpdateGroup] at hg
    by_cases hc : g0.variantId = cid
    · rw [if_pos hc] at hg
      rcases List.mem_cons.mp hg with heq | hmem
      · subst heq
        exact applyMemberAdds_noDataLoss g0 cid s ec lv eo dn dc hdn hdc
          (hinv g0 (List.mem_cons_self g0 rest))
      · exact hinv g (List.mem_cons_of_mem g0 hmem)
    · rw [if_neg hc] at hg
      rcases List.mem_cons.mp hg with heq | hmem
      · subst heq
        exact hinv g (List.mem_cons_self g rest)
      · exact ih (fun g' hg' => hinv g' (List.mem_cons_of_mem g0 hg')) g hmem

theorem tStep_noDataLoss (groups : List TGroup) (s : TShip)
    (h : ∀ g ∈ groups, tNoDataLoss g) :
    ∀ g ∈ tStep groups s, tNoDataLoss g := by
  cases hj : jsTruthy s.manufacturerId with
  | none =>
    simp only [tStep, hj]
    exact h
  | some mid =>
    simp only [tStep, hj]
    exact tUpdateGroup_noDataLoss _ _ _ _ s _ _ _ _ _ rfl rfl groups h

/-- C5 counterexample: for the single ship record named
"Aurora Base Warbond" (an edition-only designation), the built group's
name set is only `["Aurora"]` — the member's display name
"Aurora Base Warbond" is dropped, so the name set is not a superset of
the members' display names. -/
theorem transform_name_loss :
    ∃ g ∈ transformGroups [⟨"S1", some "Aurora Base Warbond", none, none, some "RSI"⟩],
      ∃ m ∈ g.records,
        m.record.name = some "Aurora Base Warbond" ∧
        tDisplayName m.record ∉ g.names ∧ g.names = ["Aurora"] := by
  decide

/-- C5 (amended): after the group-building pass of `transform`, every
group's name set contains the display name of every member that is not
edition-only and has a non-empty display name (edition-only members
contribute only the canonical variant name, not their own display name),
and the description set contains every member-supplied description. -/
theorem transform_merge_completeness (ships : List TShip) :
    ∀ g ∈ transformGroups ships, tNoDataLoss g := by
  have key : ∀ (l : List TShip) (acc : List TGroup), (∀ g ∈ acc, tNoDataLoss g) →
      ∀ g ∈ l.foldl tStep acc, tNoDataLoss g := by
    intro l
    induction l with
    | nil =>
      intro acc h
      simpa using h
    | cons s rest ih =>
      intro acc h
      exact ih _ (tStep_noDataLoss acc s h)
  exact key ships [] (fun g hg => absurd hg (List.not_mem_nil g))

theorem transform_merge_completeness_witness :
    tDisplayName ⟨"S1", some "Aurora MR", none, some "Nice", some "RSI"⟩ ∈
        (["Aurora MR"] : List String) ∧
    ("Nice" : String) ∈ (["Nice"] : List String) := by
  have h := transform_merge_completeness
      [⟨"S1", some "Aurora MR", none, some "Nice", some "RSI"⟩]
      ⟨"RSI_AURORA_MR", "RSI_AURORA", "MR", "AURORA", ["Aurora MR"], ["Nice"],
        [⟨"RSI_AURORA_MR", ⟨"S1", some "Aurora MR", none, some "Nice", some "RSI"⟩,
          none, none, false⟩]⟩
      (by decide)
      ⟨"RSI_AURORA_MR", ⟨"S1", some "Aurora MR", none, some "Nice", some "RSI"⟩,
        none, none, false⟩
      (by decide)
  exact ⟨h.1 (by decide) (by decide), h.2 "Nice" (by decide)⟩

end SCETL
